import Mathlib

/-!
# lumail: the screen layer (`screen.cc`)

A shallow embedding of the line editor `CScreen::readline` (with its helper
`get_completion`) and of the three renderers `CScreen::drawMaildir`,
`CScreen::drawIndex` and `CScreen::drawMessage` (what they store in the shared
state, and the curses and Lua calls they make), followed by theorems about
them.

Conventions.

* A `char` buffer is a map from cell index (counted from the buffer pointer) to
  byte value; the byte `0` is the string terminator.  The map is unbounded: the
  source never checks a write against the capacity, so the embedding performs
  every write the source performs and the capacity `buflen` only appears where
  the source reads it.
* A `const char *` / `std::string` argument is the list of its bytes, the
  terminator being implicit after the last one.  `strlen` and `strcpy` stop at
  the first `0` byte, as in C.
* `pos` and `len` are natural numbers.  Every decrement in the source is
  guarded (`pos > 0`, `pos < len`), so with `pos ≤ len` they never go below
  zero.  The history offset `hoff` is an integer: the source decrements it
  before testing its sign.
-/

namespace Lumail

/-! ## C memory and string primitives -/

/-- The cells of a `char` buffer, addressed from the buffer pointer. -/
abbrev Mem := Nat → Nat

/-- The assignment `buf[i] = c`. -/
def poke (buf : Mem) (i c : Nat) : Mem :=
  fun j => if j = i then c else buf j

/-- The call `memmove(buf + dst, buf + src, n)`: the `n` cells from `src` are
copied to `dst`, the two regions being allowed to overlap. -/
def memmove (buf : Mem) (dst src n : Nat) : Mem :=
  fun j => if dst ≤ j ∧ j < dst + n then buf (src + (j - dst)) else buf j

/-- The bytes of a C string up to, not including, its terminator. -/
def c_str (s : List Nat) : List Nat :=
  s.takeWhile (fun b => b ≠ 0)

/-- The call `strlen(s)`. -/
def strlen (s : List Nat) : Nat :=
  (c_str s).length

/-- Cell `j` of a string constant: its bytes, then the terminator. -/
def cell (s : List Nat) (j : Nat) : Nat :=
  s.getD j 0

/-- The call `strcpy(buf, s)`: the bytes of `s` up to its terminator, then the
terminator itself. -/
def strcpy (buf : Mem) (s : List Nat) : Mem :=
  fun j => if j < strlen s then cell s j else if j = strlen s then 0 else buf j

/-- The test `strncmp(a + i, b + i, n) == 0`: at most `n` cells are compared,
and the comparison stops after a terminator common to both. -/
def strncmp_eq (a b : Mem) : Nat → Nat → Bool
  | _, 0 => true
  | i, n + 1 =>
    if a i ≠ b i then false
    else if a i = 0 then true
    else strncmp_eq a b (i + 1) n

/-- The first `n` cells of a buffer. -/
def cells (buf : Mem) (n : Nat) : List Nat :=
  (List.range n).map buf

/-- The bytes of a string literal. -/
def bytes (s : String) : List Nat :=
  s.toList.map Char.toNat

/-! ## `get_completion` -/

/-- The table `functions[]` of `get_completion`, without its closing `NULL`. -/
def functions : List String :=
  [ "abort", "add_selected_folder", "attachments", "clear",
    "clear_selected_folders", "compose", "count_attachments", "count_maildirs",
    "count_messages", "current_maildir", "current_maildirs", "current_message",
    "delete", "dump_stack", "editor", "exec", "executable", "exit",
    "file_exists", "from", "get_variables", "global_mode", "header",
    "index_format", "index_limit", "is_directory", "is_new", "jump_index_to",
    "jump_maildir_to", "maildir_format", "maildir_limit", "maildir_prefix",
    "maildirs_matching", "mark_new", "mark_read", "message_filter",
    "mime_type", "msg", "prompt", "prompt_chars", "prompt_maildir",
    "prompt_yn", "refresh_display", "reply", "save", "save_attachment",
    "save_message", "screen_height", "screen_width", "scroll_index_down",
    "scroll_index_to", "scroll_index_up", "scroll_maildir_down",
    "scroll_maildir_to", "scroll_maildir_up", "scroll_message_down",
    "scroll_message_up", "select_maildir", "selected_folders", "send_email",
    "sendmail_path", "sent_mail", "set_selected_folder", "sleep",
    "toggle_selected_folder" ]

/-- The loop of `get_completion` over a table: the first entry whose
`strncmp` with the input over `size` cells is zero, `none` at the end of the
table. -/
def first_match (input : Mem) (size : Nat) : List String → Option (List Nat)
  | [] => none
  | f :: fs =>
    if strncmp_eq input (cell (bytes f)) 0 size then some (bytes f)
    else first_match input size fs

/-- The function `get_completion(input, size)` over a table; `home` is the
result of `getenv("HOME")`. -/
def get_completion_in (table : List String) (home : Option (List Nat))
    (input : Mem) (size : Nat) : Option (List Nat) :=
  if strncmp_eq input (cell (bytes "~")) 0 1 ∧ home.isSome then home.map c_str
  else first_match input size table

/-- The function `get_completion(input, size)`. -/
def get_completion (home : Option (List Nat)) (input : Mem) (size : Nat) :
    Option (List Nat) :=
  get_completion_in functions home input size

/-! ## The History Store -/

/-- Modelled from the spec: the History Store, class `CHistory` of `history.h`,
which is not among the sources.  An append-only, index-addressable sequence of
previously entered lines. -/
structure CHistory where
  /-- The lines, oldest first. -/
  lines : List (List Nat)
deriving DecidableEq

/-- Modelled from the spec: `hist->size()`, the number of lines. -/
def CHistory.size (h : CHistory) : Int :=
  h.lines.length

/-- Modelled from the spec: `hist->at(i)`, the line at index `i`; `none`
stands for the range error of an index outside `[0, size)`. -/
def CHistory.at_ (h : CHistory) (i : Int) : Option (List Nat) :=
  if 0 ≤ i then h.lines[i.toNat]? else none

/-- Modelled from the spec: `hist->add(line)`, which appends one line. -/
def CHistory.add (h : CHistory) (line : List Nat) : CHistory :=
  ⟨h.lines ++ [line]⟩

/-! ## `CScreen::readline` -/

/-- Key code `KEY_DOWN` of curses. -/
def KEY_DOWN : Int := 258
/-- Key code `KEY_UP` of curses. -/
def KEY_UP : Int := 259
/-- Key code `KEY_LEFT` of curses. -/
def KEY_LEFT : Int := 260
/-- Key code `KEY_RIGHT` of curses. -/
def KEY_RIGHT : Int := 261
/-- Key code `KEY_BACKSPACE` of curses. -/
def KEY_BACKSPACE : Int := 263
/-- Key code `KEY_DC` (delete character) of curses. -/
def KEY_DC : Int := 330
/-- Key code `KEY_ENTER` of curses. -/
def KEY_ENTER : Int := 343

/-- The test `isprint(c)` in the C locale: the codes from space to tilde.  The
curses key codes and `ERR` lie outside this range. -/
def isprint (c : Int) : Bool :=
  decide (32 ≤ c ∧ c ≤ 126)

/-- The local variables of `readline` that live across loop iterations. -/
structure EditState where
  /-- The caller's buffer. -/
  buffer : Mem
  /-- The cursor. -/
  pos : Nat
  /-- The number of characters of the line. -/
  len : Nat
  /-- The offset into the history. -/
  hoff : Int

/-- The line being edited: the cells `buffer[0 .. len)`. -/
def EditState.text (s : EditState) : List Nat :=
  cells s.buffer s.len

/-- What one pass through the loop body does after `getch()`. -/
inductive Outcome where
  /-- The `break` of the loop. -/
  | submit : Outcome
  /-- The loop goes on in the given state; the flag tells whether `beep()` was
  called. -/
  | next (s : EditState) (beep : Bool) : Outcome
  /-- The range error of `hist->at`. -/
  | fault : Outcome

/-- The `if` chain of the loop body of `readline`, on the key `c` returned by
`getch()`. -/
def dispatch (buflen : Int) (hist : CHistory) (home : Option (List Nat))
    (s : EditState) (c : Int) : Outcome :=
  if c = KEY_ENTER ∨ c = 10 ∨ c = 13 then .submit
  else if isprint c then
    if (s.pos : Int) < buflen - 1 then
      .next { s with
              buffer := poke (memmove s.buffer (s.pos + 1) s.pos (s.len - s.pos))
                          s.pos c.toNat
              pos := s.pos + 1
              len := s.len + 1 } false
    else .next s true
  else if c = 9 then
    if 0 < s.len ∧ 0 < s.pos then
      match get_completion home s.buffer s.len with
      | some reply =>
        .next { s with
                buffer := strcpy s.buffer reply
                pos := strlen reply
                len := strlen reply } false
      | none => .next s false
    else .next s false
  else if c = 1 then .next { s with pos := 0 } false
  else if c = 5 then .next { s with pos := s.len } false
  else if c = KEY_LEFT then
    if 0 < s.pos then .next { s with pos := s.pos - 1 } false
    else .next s true
  else if c = KEY_UP then
    if 0 ≤ s.hoff - 1 then
      match hist.at_ (s.hoff - 1) with
      | some ent =>
        .next { buffer := strcpy s.buffer ent
                pos := strlen ent
                len := strlen ent
                hoff := s.hoff - 1 } false
      | none => .fault
    else .next { s with hoff := 0 } true
  else if c = KEY_DOWN then
    if s.hoff + 1 < hist.size then
      match hist.at_ (s.hoff + 1) with
      | some ent =>
        .next { buffer := strcpy s.buffer ent
                pos := strlen ent
                len := strlen ent
                hoff := s.hoff + 1 } false
      | none => .fault
    else .next { s with hoff := hist.size } true
  else if c = KEY_RIGHT then
    if s.pos < s.len then .next { s with pos := s.pos + 1 } false
    else .next s true
  else if c = KEY_BACKSPACE then
    if 0 < s.pos then
      .next { s with
              buffer := memmove s.buffer (s.pos - 1) s.pos (s.len - s.pos)
              pos := s.pos - 1
              len := s.len - 1 } false
    else .next s true
  else if c = KEY_DC then
    if s.pos < s.len then
      .next { s with
              buffer := memmove s.buffer s.pos (s.pos + 1) (s.len - s.pos - 1)
              len := s.len - 1 } false
    else .next s true
  else .next s true

/-- The statement `buffer[len] = ' '` at the head of the loop body.  The
redrawing of the line that follows it changes none of the variables. -/
def loop_head (s : EditState) : EditState :=
  { s with buffer := poke s.buffer s.len 32 }

/-- One pass through the loop body: the head, then the `if` chain on the key
read. -/
def iteration (buflen : Int) (hist : CHistory) (home : Option (List Nat))
    (s : EditState) (c : Int) : Outcome :=
  dispatch buflen hist home (loop_head s) c

/-- Where a run of the loop over a finite supply of keys ends. -/
inductive Run where
  /-- The keys are used up and the loop waits in `getch()`. -/
  | waiting (s : EditState) : Run
  /-- The loop was left by `break`. -/
  | returned (s : EditState) : Run
  /-- The range error of `hist->at` was raised. -/
  | threw : Run

/-- The `for (;;)` loop of `readline`, fed the keys that `getch()` returns, in
order.  Keys after the one that leaves the loop are not read. -/
def loop (buflen : Int) (hist : CHistory) (home : Option (List Nat)) :
    EditState → List Int → Run
  | s, [] => .waiting s
  | s, c :: cs =>
    match iteration buflen hist home s c with
    | .submit => .returned (loop_head s)
    | .next s1 _ => loop buflen hist home s1 cs
    | .fault => .threw

/-- The state in which `readline` enters its loop. -/
def fresh (buffer : Mem) (hist : CHistory) : EditState :=
  { buffer := buffer, pos := 0, len := 0, hoff := hist.size }

/-- What `readline` leaves behind when it returns. -/
structure Returned where
  /-- The caller's buffer. -/
  buffer : Mem
  /-- The index of the terminator written by `buffer[len] = 0`. -/
  terminator : Nat
  /-- The History Store after `hist->add(buffer)`. -/
  hist : CHistory

/-- The string handed back to the caller: the bytes of the buffer before the
first terminator, which is at index `terminator` at the latest. -/
def Returned.text (r : Returned) : List Nat :=
  c_str (cells r.buffer (r.terminator + 1))

/-- The function `CScreen::readline(buffer, buflen)`, fed the keys that
`getch()` returns.  `none` when the loop is not left by `break` on these
keys. -/
def readline (buffer : Mem) (buflen : Int) (hist : CHistory)
    (home : Option (List Nat)) (keys : List Int) : Option Returned :=
  match loop buflen hist home (fresh buffer hist) keys with
  | .returned s =>
    let buffer1 := poke s.buffer s.len 0
    some { buffer := buffer1
           terminator := s.len
           hist := hist.add (c_str (cells buffer1 (s.len + 1))) }
  | _ => none

/-! ## The renderers: selection handling -/

/-- Modelled from the spec: the shared application state, class `CGlobal` of
`global.h`, which is not among the sources.  The fields are what the
accessors used by the renderers return: `get_variable("global_mode")`,
`get_folders()`, `get_messages()` (a pointer, `none` when it is null),
`get_selected_folder()` and `get_selected_message()`; the two setters
`set_selected_folder` and `set_selected_message` store their argument in the
field of the same name.  `F` and `M` are the classes `CMaildir` and
`CMessage`. -/
structure CGlobal (F M : Type) where
  /-- The variable `global_mode`. -/
  global_mode : String
  /-- The folder sequence. -/
  folders : List F
  /-- The message sequence. -/
  messages : Option (List M)
  /-- The highlighted index into the folder sequence. -/
  selected_folder : Int
  /-- The highlighted index into the message sequence. -/
  selected_message : Int

/-- What a renderer does to the shared state, and which elements of its
sequence it reads.  The drawing calls, which touch neither, are not part of
this record. -/
structure Drawn (F M : Type) where
  /-- The shared state when the renderer returns. -/
  global : CGlobal F M
  /-- The indices at which the sequence was accessed (`display[i]`,
  `messages->at(i)`), in order. -/
  reads : List Int

/-- The element accesses of the row loop
`for (row = 0; row < (height - 1); row++)` shared by `drawMaildir` and
`drawIndex`: row `row` accesses index `row + selected` when
`(row + selected) < count`. -/
def row_reads (height selected count : Int) : List Int :=
  (List.range (height - 1).toNat).filterMap fun (row : Nat) =>
    if (row : Int) + selected < count then some ((row : Int) + selected) else none

/-- The function `CScreen::drawMaildir`, on a terminal of the given height. -/
def drawMaildir {F M : Type} (height : Int) (g : CGlobal F M) : Drawn F M :=
  let count : Int := g.folders.length
  let selected := g.selected_folder
  if count < 1 then { global := g, reads := [] }
  else if selected ≥ count then
    { global := { g with selected_folder := 0 }, reads := row_reads height 0 count }
  else
    { global := g, reads := row_reads height selected count }

/-- The function `CScreen::drawIndex`, on a terminal of the given height. -/
def drawIndex {F M : Type} (height : Int) (g : CGlobal F M) : Drawn F M :=
  match g.messages with
  | none => { global := g, reads := [] }
  | some messages =>
    if messages.length < 1 then { global := g, reads := [] }
    else
      let count : Int := messages.length
      let selected := g.selected_message
      if selected ≥ count then
        { global := { g with selected_message := count - 1 },
          reads := row_reads height (count - 1) count }
      else
        { global := g, reads := row_reads height selected count }

/-- The function `CScreen::drawMessage`.  `none` stands for the dereference of
a null `messages` pointer. -/
def drawMessage {F M : Type} (g : CGlobal F M) : Option (Drawn F M) :=
  match g.messages with
  | none => none
  | some messages =>
    let count : Int := messages.length
    let selected := g.selected_message
    let g1 : CGlobal F M :=
      if selected ≥ count then { g with selected_message := count - 1 } else g
    let selected1 : Int := if selected ≥ count then count - 1 else selected
    if selected1 < count ∧ count > 0 then
      some { global := g1, reads := [selected1] }
    else
      some { global := g1, reads := [] }

/-- The function `CScreen::refresh_display`, on a terminal of the given
height. -/
def refresh_display {F M : Type} (height : Int) (g : CGlobal F M) :
    Option (Drawn F M) :=
  if g.global_mode = "maildir" then some (drawMaildir height g)
  else if g.global_mode = "index" then some (drawIndex height g)
  else if g.global_mode = "message" then drawMessage g
  else some { global := g, reads := [] }

/-! ## The renderers: what is drawn

The functions below give, for each renderer, the curses and Lua calls it makes,
in order.  `none` stands for an access outside a sequence or a string (an
index below zero or past the end), after which the source has no defined
behaviour.  The conversions between `int` and `size_t` are explicit where the
source mixes the two types in one expression. -/

/-- Modelled from the spec: a message, class `CMessage` of `message.h`, which
is not among the sources.  The fields are what the accessors used by
`drawIndex` and `drawMessage` return. -/
structure CMessage where
  /-- The call `path()`. -/
  path : List Nat
  /-- The call `flags()`. -/
  flags : List Nat
  /-- The call `format()`, the line shown in the index. -/
  format : List Nat
  /-- The call `format(fmt)`, the value of a header identifier. -/
  format_of : List Nat → List Nat
  /-- The call `attachments()`. -/
  attachments : List (List Nat)
  /-- The call `body()`. -/
  body : List (List Nat)

/-- Modelled from the spec: what the renderers read besides the sequences and
the highlighted indices.  The terminal size is what `CScreen::width()` and
`CScreen::height()` return; the next three fields are the variable
`maildir_limit`, `get_selected_folders()` and `get_message_offset()` of
`CGlobal`; `headers` is the Lua table `headers` as `table_to_array` returns
it; the last three are the message texts of `lang.h`, which is not among the
sources. -/
structure Scene where
  /-- The call `CScreen::width()`. -/
  width : Int
  /-- The call `CScreen::height()`. -/
  height : Int
  /-- The variable `maildir_limit`. -/
  maildir_limit : List Nat
  /-- The call `get_selected_folders()`, the checked set. -/
  selected_folders : List (List Nat)
  /-- The call `get_message_offset()`, the scroll offset. -/
  message_offset : Int
  /-- The Lua table `headers`. -/
  headers : List (List Nat)
  /-- The text `NO_MESSAGES_NO_FOLDERS`. -/
  NO_MESSAGES_NO_FOLDERS : List Nat
  /-- The text `NO_MESSAGES_IN_FOLDERS`. -/
  NO_MESSAGES_IN_FOLDERS : List Nat
  /-- The text `NO_MESSAGES`. -/
  NO_MESSAGES : List Nat

/-- A call made by a renderer. -/
inductive Call where
  /-- The call `move(row, col)`. -/
  | move (row col : Int) : Call
  /-- A call of `printw`, with the text that results from its format. -/
  | printw (text : List Nat) : Call
  /-- The call `attron(attr)`. -/
  | attron (attr : Nat) : Call
  /-- The call `attrset(attr)`. -/
  | attrset (attr : Nat) : Call
  /-- The call `attroff(attr)`. -/
  | attroff (attr : Nat) : Call
  /-- The call `clear()`. -/
  | clear : Call
  /-- The call `lua->execute(script)`. -/
  | lua (script : List Nat) : Call
deriving DecidableEq

/-- The attribute `A_REVERSE` of curses. -/
def A_REVERSE : Nat := 262144
/-- The attribute `COLOR_PAIR(n)` of curses. -/
def COLOR_PAIR (n : Nat) : Nat := n * 256

/-- The conversion of an integer value to `int`, 32 bits wide. -/
def to_int (x : Int) : Int :=
  (x + 2147483648) % 4294967296 - 2147483648

/-- The conversion of an integer value to `size_t`, 64 bits wide. -/
def to_size_t (x : Int) : Nat :=
  (x % 18446744073709551616).toNat

/-- The element access `v[i]` or `v->at(i)` with an `int` index. -/
def at_index {α : Type} (v : List α) (i : Int) : Option α :=
  if 0 ≤ i then v[i.toNat]? else none

/-- The loop `while ((int)s.size() < w) s += " "`. -/
def pad (s : List Nat) (w : Int) : List Nat :=
  s ++ List.replicate (w - s.length).toNat 32

/-- The calls of all rows together; `none` as soon as one row has none. -/
def gather : List (Option (List Call)) → Option (List Call)
  | [] => some []
  | none :: _ => none
  | some c :: rest =>
    match gather rest with
    | some cs => some (c ++ cs)
    | none => none

/-- The text printed for one row of `drawIndex`: the line is padded, then cut
by `buf[width - 3] = 0` when it is longer than `width - 3`, then printed up to
its first terminator. -/
def index_text (width : Int) (line : List Nat) : Option (List Nat) :=
  let buf := pad line (width - 3)
  if (buf.length : Int) > width - 3 then
    if 0 ≤ width - 3 then some (c_str (buf.set (width - 3).toNat 0)) else none
  else some (c_str buf)

/-- The calls of one pass through the row loop of `drawIndex`, given whether
the message of that row is unread and the text to print. -/
def index_row_calls (row : Nat) (unread : Bool) (text : List Nat) : List Call :=
  (if unread then
      [Call.attrset (if row = 0 then COLOR_PAIR 1 ||| A_REVERSE else COLOR_PAIR 1)]
    else if row = 0 then [Call.attrset A_REVERSE] else [])
    ++ [Call.move row 2]
    ++ [Call.printw text]
    ++ [Call.attrset (COLOR_PAIR 2)]
    ++ (if row = 0 then [Call.attroff A_REVERSE] else [])

/-- One pass through the row loop of `drawIndex`. -/
def index_row (sc : Scene) (messages : List CMessage) (selected : Int) (row : Nat) :
    Option (List Call) :=
  if (row : Int) + selected < messages.length then
    match at_index messages ((row : Int) + selected) with
    | some cur =>
      match index_text sc.width cur.format with
      | some text => some (index_row_calls row (decide (78 ∈ cur.flags)) text)
      | none => none
    | none => none
  else
    match index_text sc.width [] with
    | some text => some (index_row_calls row false text)
    | none => none

/-- The loop of `drawIndex` over the selected folders when there is no
message: one line per folder from the given row on, as long as the row is
above the status line. -/
def folder_names_calls (height : Int) : Int → List (List Nat) → List Call
  | _, [] => []
  | row, name :: rest =>
    if row ≥ height - 1 then []
    else [Call.move row 5, Call.printw (c_str name)]
      ++ folder_names_calls height (row + 1) rest

/-- The calls made by `CScreen::drawIndex` when there is no message. -/
def index_empty_calls (sc : Scene) : List Call :=
  if sc.selected_folders.length < 1 then
    [Call.clear, Call.move 2 2, Call.printw sc.NO_MESSAGES_NO_FOLDERS]
  else
    [Call.clear, Call.move 2 2, Call.printw sc.NO_MESSAGES_IN_FOLDERS]
      ++ folder_names_calls sc.height 4 sc.selected_folders

/-- The calls made by `CScreen::drawIndex`. -/
def drawIndex_calls {F : Type} (sc : Scene) (g : CGlobal F CMessage) :
    Option (List Call) :=
  match g.messages with
  | none => some (index_empty_calls sc)
  | some messages =>
    if messages.length < 1 then some (index_empty_calls sc)
    else
      let count : Int := messages.length
      let selected : Int :=
        if g.selected_message ≥ count then count - 1 else g.selected_message
      gather ((List.range (sc.height - 1).toNat).map (index_row sc messages selected))

/-- The function `tolower` in the C locale. -/
def tolower (c : Nat) : Nat :=
  if 65 ≤ c ∧ c ≤ 90 then c + 32 else c

/-- The function `toupper` in the C locale. -/
def toupper (c : Nat) : Nat :=
  if 97 ≤ c ∧ c ≤ 122 then c - 32 else c

/-- The name shown for a header identifier: `substr(1)`, then `tolower` on
every character, then `toupper` on the first.  `none` stands for the range
error of `substr(1)` on the empty string. -/
def header_name (id : List Nat) : Option (List Nat) :=
  if id.length < 1 then none
  else
    match (id.drop 1).map tolower with
    | [] => some []
    | c :: cs => some (toupper c :: cs)

/-- The text of one header row of `drawMessage`: the value is cut by
`value.substr(0, width - name.size() - 4)`, a `size_t` expression, and the row
is printed with the format `"%s: %s"`. -/
def header_text (width : Int) (id value : List Nat) : Option (List Nat) :=
  match header_name id with
  | none => none
  | some name =>
    some (c_str name ++ bytes ": "
      ++ c_str (value.take (to_size_t (width - name.length - 4))))

/-- The header loop of `drawMessage`, from the given row on. -/
def header_calls (width : Int) (cur : CMessage) : Nat → List (List Nat) → Option (List Call)
  | _, [] => some []
  | row, id :: rest =>
    match header_text width id (cur.format_of id), header_calls width cur (row + 1) rest with
    | some text, some cs => some ([Call.move row 0, Call.printw text] ++ cs)
    | _, _ => none

/-- The digits of the format `%d` for a number that is not negative. -/
def decimal (n : Nat) : List Nat :=
  (Nat.toDigits 10 n).map Char.toNat

/-- The attachment loop of `drawMessage`, from the given row and count on. -/
def attachment_calls : Nat → Nat → List (List Nat) → List Call
  | _, _, [] => []
  | row, acount, path :: rest =>
    [Call.move row 0,
     Call.printw (bytes "Attachment " ++ decimal acount ++ bytes " - " ++ c_str path)]
      ++ attachment_calls (row + 1) (acount + 1) rest

/-- The number `max` of `drawMessage`:
`std::min((int)body.size(), (int)(height - headers.size() - attachments.size()))`. -/
def body_max (height : Int) (nbody nheaders nattachments : Nat) : Int :=
  min (to_int nbody) (to_int (to_size_t (height - nheaders - nattachments)))

/-- One pass through the body loop of `drawMessage`. -/
def body_row (sc : Scene) (body : List (List Nat)) (nheaders nattachments : Nat) (i : Nat) :
    Option (List Call) :=
  let row := to_int (to_size_t ((i : Int) + (nheaders + nattachments + 1)))
  if (i : Int) + sc.message_offset < to_int body.length then
    match at_index body ((i : Int) + sc.message_offset) with
    | some line => some [Call.move row 0, Call.printw (c_str line)]
    | none => none
  else some [Call.move row 0, Call.printw []]

/-- The body loop of `drawMessage`. -/
def body_calls (sc : Scene) (body : List (List Nat)) (nheaders nattachments : Nat) :
    Option (List Call) :=
  gather ((List.range (body_max sc.height body.length nheaders nattachments - 2).toNat).map
    (body_row sc body nheaders nattachments))

/-- The header identifiers `drawMessage` shows: the Lua table, or the four
built-in ones when the table is empty. -/
def shown_headers (sc : Scene) : List (List Nat) :=
  if sc.headers.isEmpty then [bytes "$DATE", bytes "$FROM", bytes "$TO", bytes "$SUBJECT"]
  else sc.headers

/-- The calls made by `CScreen::drawMessage` once it has a message. -/
def message_calls (sc : Scene) (cur : CMessage) : Option (List Call) :=
  let headers := shown_headers sc
  match header_calls sc.width cur 0 headers,
      body_calls sc cur.body headers.length cur.attachments.length with
  | some hs, some bs =>
    some ([Call.lua (bytes "clear();")] ++ hs
      ++ attachment_calls headers.length 1 cur.attachments ++ bs
      ++ [Call.lua (bytes "on_read_message(" ++ [34] ++ cur.path ++ [34] ++ bytes ");")])
  | _, _ => none

/-- The calls made by `CScreen::drawMessage`. -/
def drawMessage_calls {F : Type} (sc : Scene) (g : CGlobal F CMessage) :
    Option (List Call) :=
  match g.messages with
  | none => none
  | some messages =>
    let count : Int := messages.length
    let selected : Int :=
      if g.selected_message ≥ count then count - 1 else g.selected_message
    if selected < count ∧ count > 0 then
      match at_index messages selected with
      | some cur => message_calls sc cur
      | none => none
    else some [Call.clear, Call.move 3 3, Call.printw sc.NO_MESSAGES]

/-- The lines a list of calls draws: for every `printw`, the row of the last
`move` before it and the text printed.  `row` is the row before the first
call. -/
def drawn_from : Int → List Call → List (Int × List Nat)
  | _, [] => []
  | _, Call.move r _ :: rest => drawn_from r rest
  | row, Call.printw text :: rest => (row, text) :: drawn_from row rest
  | row, _ :: rest => drawn_from row rest

/-- The lines a list of calls draws, each with the row it is drawn on. -/
def drawn (calls : List Call) : List (Int × List Nat) :=
  drawn_from 0 calls

/-- The calls that draw the given lines from column 0: for each line, a `move`
to its row and a `printw` of its text. -/
def line_calls (lines : List (Int × List Nat)) : List Call :=
  (lines.map fun p => [Call.move p.1 0, Call.printw p.2]).flatten

/-! ## The renderers: what curses shows

The calls of a renderer act on the curses window, which keeps an attribute in
force and a cursor between calls.  The functions below give the effect of a
list of calls on that state and the runs of characters the list draws. -/

/-- The state of the curses window that the calls read and change: the
attribute in force and the cursor. -/
structure Pen where
  /-- The attribute in force. -/
  attr : Nat
  /-- The row of the cursor. -/
  row : Int
  /-- The column of the cursor. -/
  col : Int
deriving DecidableEq

/-- A run of characters drawn by one `printw`: the cell of its first
character, the characters, and the attribute they are drawn with. -/
structure Stroke where
  /-- The row of the first character. -/
  row : Int
  /-- The column of the first character. -/
  col : Int
  /-- The characters. -/
  text : List Nat
  /-- The attribute the characters are drawn with. -/
  attr : Nat
deriving DecidableEq

/-- The effect of one call on the curses window.  `move` sets the cursor;
`printw` advances it over the text; `attron` adds the given attribute to the
one in force and `attroff` removes it (for an attribute without colour pair,
as `A_STANDOUT` and `A_REVERSE`, the only ones the renderers pass);
`attrset` replaces the attribute in force; `clear` puts the cursor at the top
left; a Lua call is taken to leave both as they are. -/
def pen_step (p : Pen) : Call → Pen
  | Call.move r c => { p with row := r, col := c }
  | Call.printw text => { p with col := p.col + text.length }
  | Call.attron a => { p with attr := p.attr ||| a }
  | Call.attrset a => { p with attr := a }
  | Call.attroff a => { p with attr := p.attr ^^^ (p.attr &&& a) }
  | Call.clear => { p with row := 0, col := 0 }
  | Call.lua _ => p

/-- The state of the curses window after a list of calls. -/
def pen_after : Pen → List Call → Pen
  | p, [] => p
  | p, c :: rest => pen_after (pen_step p c) rest

/-- The strokes a list of calls draws, from the given state of the curses
window: each `printw` draws its text at the cursor with the attribute in
force. -/
def painted : Pen → List Call → List Stroke
  | _, [] => []
  | p, Call.printw text :: rest =>
    { row := p.row, col := p.col, text := text, attr := p.attr }
      :: painted (pen_step p (Call.printw text)) rest
  | p, c :: rest => painted (pen_step p c) rest

/-- A terminal of the given size, with nothing checked, no scroll offset and
an empty `headers` table. -/
def sample_scene (width height : Int) : Scene :=
  { width := width
    height := height
    maildir_limit := bytes "all"
    selected_folders := []
    message_offset := 0
    headers := []
    NO_MESSAGES_NO_FOLDERS := bytes "No messages"
    NO_MESSAGES_IN_FOLDERS := bytes "No messages in"
    NO_MESSAGES := bytes "No messages" }

/-- A read message with the given index line, attachments and body, whose
header values are all `v`. -/
def sample_message (line : List Nat) (attachments body : List (List Nat)) : CMessage :=
  { path := bytes "/mail/cur/1"
    flags := bytes "S"
    format := line
    format_of := fun _ => bytes "v"
    attachments := attachments
    body := body }

theorem cells_length (buf : Mem) (n : Nat) : (cells buf n).length = n := by
  simp [cells]

theorem cells_getElem (buf : Mem) (n i : Nat) (h : i < (cells buf n).length) :
    (cells buf n)[i] = buf i := by
  simp [cells]

theorem cells_congr {a b : Mem} {n : Nat} (h : ∀ i, i < n → a i = b i) :
    cells a n = cells b n := by
  apply List.ext_getElem
  · simp [cells_length]
  · intro i h1 h2
    rw [cells_getElem, cells_getElem]
    exact h i (by simpa [cells_length] using h1)

theorem cells_eq_of_getElem {buf : Mem} {n : Nat} {l : List Nat} (hl : l.length = n)
    (h : ∀ i (hi : i < l.length), buf i = l[i]) : cells buf n = l := by
  apply List.ext_getElem
  · simp [cells_length, hl]
  · intro i h1 h2
    rw [cells_getElem]
    exact h i h2

theorem c_str_of_not_mem {s : List Nat} (h : 0 ∉ s) : c_str s = s := by
  unfold c_str
  rw [List.takeWhile_eq_self_iff]
  intro b hb
  have : b ≠ 0 := fun h0 => h (h0 ▸ hb)
  simpa using this

theorem strlen_of_not_mem {s : List Nat} (h : 0 ∉ s) : strlen s = s.length := by
  unfold strlen
  rw [c_str_of_not_mem h]

/-- Inserting at the cursor: the `memmove` and the store of the printable
branch. -/
theorem cells_insert (buf : Mem) (pos len c : Nat) (h : pos ≤ len) :
    cells (poke (memmove buf (pos + 1) pos (len - pos)) pos c) (len + 1)
      = (cells buf len).take pos ++ c :: (cells buf len).drop pos := by
  apply cells_eq_of_getElem
  · simp [cells_length]; omega
  · intro i hi
    simp only [List.length_append, List.length_take, List.length_cons, List.length_drop,
      cells_length] at hi
    rcases Nat.lt_trichotomy i pos with hlt | heq | hgt
    · rw [List.getElem_append_left (by simp [cells_length]; omega)]
      simp [poke, memmove, cells, hlt.ne]
      omega
    · subst heq
      rw [List.getElem_append_right (by simp [cells_length])]
      simp [poke, cells_length, Nat.min_eq_left h]
    · rw [List.getElem_append_right (by simp [cells_length]; omega)]
      have h1 : i - (List.take pos (cells buf len)).length = (i - pos - 1) + 1 := by
        simp [cells_length]; omega
      simp only [h1, List.getElem_cons_succ]
      have hne : i ≠ pos := by omega
      have hin : pos + 1 ≤ i ∧ i < pos + 1 + (len - pos) := by omega
      simp [poke, memmove, cells, hne, hin]
      congr 1

/-- Deleting the cell before index `pos + 1`, the `memmove` of the deletion
branches: the cells from `pos + 1` on move down by one. -/
theorem cells_delete (buf : Mem) (pos len : Nat) (h : pos < len) :
    cells (memmove buf pos (pos + 1) (len - (pos + 1))) (len - 1)
      = (cells buf len).take pos ++ (cells buf len).drop (pos + 1) := by
  apply cells_eq_of_getElem
  · simp [cells_length]; omega
  · intro i hi
    simp only [List.length_append, List.length_take, List.length_drop,
      cells_length] at hi
    rcases Nat.lt_or_ge i pos with hlt | hge
    · rw [List.getElem_append_left (by simp [cells_length]; omega)]
      have hout : ¬ (pos ≤ i ∧ i < pos + (len - (pos + 1))) := by omega
      simp [memmove, cells, hout]
    · rw [List.getElem_append_right (by simp [cells_length]; omega)]
      have hin : pos ≤ i ∧ i < pos + (len - (pos + 1)) := by omega
      simp [memmove, cells, hin, cells_length]
      congr 1
      omega

theorem cells_poke_len (buf : Mem) (len c : Nat) :
    cells (poke buf len c) len = cells buf len := by
  apply cells_congr
  intro i hi
  simp [poke, hi.ne]

theorem cell_eq_getElem (s : List Nat) (j : Nat) (h : j < s.length) : cell s j = s[j] := by
  simp [cell, List.getElem?_eq_getElem h]

theorem cells_strcpy_strlen (buf : Mem) (s : List Nat) :
    cells (strcpy buf s) (strlen s) = c_str s := by
  apply cells_eq_of_getElem rfl
  intro i hi
  have hi2 : i < strlen s := hi
  have hpre : c_str s <+: s := List.takeWhile_prefix _
  have hlen : i < s.length := lt_of_lt_of_le hi hpre.length_le
  have := List.IsPrefix.getElem hpre hi
  simp [strcpy, hi2, cell_eq_getElem s i hlen, this]

/-- On a line without terminator, `strncmp` over the `n` cells from `i` is
zero exactly when these cells agree with those of the other string. -/
theorem strncmp_eq_iff (a b : Mem) (n : Nat) :
    ∀ i, (∀ j, i ≤ j → j < i + n → a j ≠ 0) →
      (strncmp_eq a b i n = true ↔ ∀ j, i ≤ j → j < i + n → a j = b j) := by
  induction n with
  | zero =>
    intro i _
    simp only [strncmp_eq, true_iff]
    intro j h1 h2
    omega
  | succ n ih =>
    intro i h0
    have hi := h0 i le_rfl (by omega)
    have ih1 := ih (i + 1) (fun j h1 h2 => h0 j (by omega) (by omega))
    by_cases hab : a i = b i
    · simp only [strncmp_eq, hab, ne_eq, not_true_eq_false, if_false]
      rw [← hab, if_neg hi, ih1]
      constructor
      · intro h j h1 h2
        rcases Nat.eq_or_lt_of_le h1 with heq | hlt
        · rw [← heq]; exact hab
        · exact h j hlt (by omega)
      · intro h j h1 h2
        exact h j (by omega) (by omega)
    · simp only [strncmp_eq, ne_eq, hab, not_false_eq_true, if_true]
      constructor
      · intro h; cases h
      · intro h; exact absurd (h i le_rfl (by omega)) hab

/-- On a line without terminator, `strncmp` over the whole line is zero
exactly when the line is an initial segment of the other string. -/
theorem strncmp_eq_iff_isPrefix (a : Mem) (n : Nat) (f : List Nat)
    (h0 : 0 ∉ cells a n) :
    strncmp_eq a (cell f) 0 n = true ↔ cells a n <+: f := by
  have hne : ∀ j, 0 ≤ j → j < 0 + n → a j ≠ 0 := by
    intro j _ hj hz
    apply h0
    rw [List.mem_iff_getElem]
    exact ⟨j, by simpa [cells_length] using hj, by rw [cells_getElem]; exact hz⟩
  rw [strncmp_eq_iff a (cell f) n 0 hne]
  constructor
  · intro h
    have hle : n ≤ f.length := by
      by_contra hlt
      push_neg at hlt
      have h1 := h f.length (Nat.zero_le _) (by omega)
      have h2 : cell f f.length = 0 := by simp [cell]
      exact hne f.length (Nat.zero_le _) (by omega) (h1.trans h2)
    have : cells a n = f.take n := by
      apply cells_eq_of_getElem (by simp [hle])
      intro i hi
      have hi2 : i < n := by simpa [hle] using hi
      rw [h i (Nat.zero_le _) (by omega)]
      simp [cell_eq_getElem f i (lt_of_lt_of_le hi2 hle)]
    rw [this]
    exact List.take_prefix n f
  · intro hpre j _ hj
    have hj2 : j < (cells a n).length := by simpa [cells_length] using hj
    have hlen : j < f.length := lt_of_lt_of_le hj2 hpre.length_le
    have := List.IsPrefix.getElem hpre hj2
    rw [cells_getElem] at this
    rw [cell_eq_getElem f j hlen, this]

/-- The loop of `get_completion` returns the first entry of the table that
the line is an initial segment of. -/
theorem first_match_eq (a : Mem) (n : Nat) (h0 : 0 ∉ cells a n) (table : List String) :
    first_match a n table
      = (table.find? fun f => decide (cells a n <+: bytes f)).map bytes := by
  induction table with
  | nil => rfl
  | cons f fs ih =>
    by_cases h : cells a n <+: bytes f
    · have := (strncmp_eq_iff_isPrefix a n (bytes f) h0).mpr h
      simp [first_match, List.find?, this, h]
    · have : strncmp_eq a (cell (bytes f)) 0 n = false := by
        rw [← Bool.not_eq_true, strncmp_eq_iff_isPrefix a n (bytes f) h0]
        exact h
      simp [first_match, List.find?, this, h, ih]

theorem cells_succ (buf : Mem) (n : Nat) : cells buf (n + 1) = cells buf n ++ [buf n] := by
  simp [cells, List.range_succ]

theorem c_str_append_zero (s r : List Nat) (h : 0 ∉ s) : c_str (s ++ 0 :: r) = s := by
  induction s with
  | nil => simp [c_str]
  | cons b bs ih =>
    have hb : b ≠ 0 := fun h0 => h (by simp [h0])
    have hbs : 0 ∉ bs := fun h0 => h (by simp [h0])
    have hd : decide (b ≠ 0) = true := by simpa using hb
    show List.takeWhile (fun b => decide (b ≠ 0)) (b :: (bs ++ 0 :: r)) = b :: bs
    rw [List.takeWhile_cons, hd, if_pos rfl]
    exact congrArg (List.cons b) (ih hbs)

theorem isprint_bounds {c : Int} (h : isprint c = true) : 32 ≤ c ∧ c ≤ 126 := by
  simpa [isprint] using h

/-! ## Lemmas on the loop body -/

variable (buflen : Int) (hist : CHistory) (home : Option (List Nat))

theorem text_loop_head (s : EditState) : (loop_head s).text = s.text := by
  simp [loop_head, EditState.text, cells_poke_len]

/-- The printable branch when the guard `pos < buflen - 1` holds. -/
theorem iteration_printable (s : EditState) (c : Int) (hc : isprint c = true)
    (hpos : (s.pos : Int) < buflen - 1) :
    iteration buflen hist home s c
      = .next { buffer := poke (memmove (loop_head s).buffer (s.pos + 1) s.pos
                            (s.len - s.pos)) s.pos c.toNat
                pos := s.pos + 1
                len := s.len + 1
                hoff := s.hoff } false := by
  obtain ⟨h1, h2⟩ := isprint_bounds hc
  have hne : ¬ (c = KEY_ENTER ∨ c = 10 ∨ c = 13) := by
    simp only [KEY_ENTER]; omega
  simp [iteration, dispatch, hne, hc, loop_head, hpos]

/-- The printable branch when the guard `pos < buflen - 1` fails. -/
theorem iteration_printable_full (s : EditState) (c : Int) (hc : isprint c = true)
    (hpos : ¬ (s.pos : Int) < buflen - 1) :
    iteration buflen hist home s c = .next (loop_head s) true := by
  obtain ⟨h1, h2⟩ := isprint_bounds hc
  have hne : ¬ (c = KEY_ENTER ∨ c = 10 ∨ c = 13) := by
    simp only [KEY_ENTER]; omega
  simp [iteration, dispatch, hne, hc, loop_head, hpos]

/-- The text after the printable branch has inserted a character. -/
theorem text_insert (s : EditState) (c : Nat) (h : s.pos ≤ s.len) :
    cells (poke (memmove (loop_head s).buffer (s.pos + 1) s.pos (s.len - s.pos)) s.pos c)
        (s.len + 1)
      = s.text.take s.pos ++ c :: s.text.drop s.pos := by
  rw [cells_insert _ _ _ _ h]
  simp [loop_head, EditState.text, cells_poke_len]

/-- Typing printable characters with the cursor at the end of the line appends
them, as long as they fit. -/
theorem loop_typed (cs : List Nat) :
    ∀ (s : EditState) (rest : List Int), s.pos = s.len →
      (∀ b ∈ cs, isprint (b : Int) = true) →
      ((s.len : Int) + cs.length ≤ buflen - 1) →
      ∃ s1, loop buflen hist home s (cs.map Int.ofNat ++ rest)
              = loop buflen hist home s1 rest
            ∧ s1.text = s.text ++ cs ∧ s1.pos = s1.len
            ∧ s1.len = s.len + cs.length ∧ s1.hoff = s.hoff := by
  induction cs with
  | nil => intro s rest hp _ _; exact ⟨s, by simp, by simp, hp, by simp, rfl⟩
  | cons b bs ih =>
    intro s rest hp hpr hlen
    have hb : isprint (b : Int) = true := hpr b (by simp)
    have hguard : (s.pos : Int) < buflen - 1 := by
      simp only [List.length_cons, Nat.cast_add, Nat.cast_one] at hlen
      rw [hp]; omega
    have hstep := iteration_printable buflen hist home s b hb hguard
    obtain ⟨s1, h1, h2, h3, h4, h5⟩ := ih
      { buffer := poke (memmove (loop_head s).buffer (s.pos + 1) s.pos
                    (s.len - s.pos)) s.pos (b : Int).toNat
        pos := s.pos + 1
        len := s.len + 1
        hoff := s.hoff } rest (by simp [hp])
      (fun x hx => hpr x (by simp [hx]))
      (by simp only [List.length_cons, Nat.cast_add, Nat.cast_one] at hlen ⊢; omega)
    refine ⟨s1, ?_, ?_, h3, ?_, h5⟩
    · simp only [List.map_cons, List.cons_append, loop]
      rw [show Int.ofNat b = (b : Int) from rfl, hstep]
      exact h1
    · rw [h2]
      simp only [EditState.text, Int.toNat_ofNat]
      rw [text_insert s b (le_of_eq hp)]
      have ht : s.text.take s.pos = s.text :=
        List.take_of_length_le (by simp [EditState.text, cells_length, hp])
      have hd : s.text.drop s.pos = [] :=
        List.drop_of_length_le (by simp [EditState.text, cells_length, hp])
      rw [ht, hd]
      simp [EditState.text]
    · rw [h4]; simp only [List.length_cons]; omega

/-! ## The line editor: round trip and capacity -/

/-- C1.  Line-editor round trip: for every capacity `buflen`, every initial
History Store `H` and every string `s` of printable characters with
`|s| ≤ buflen - 1`, a fresh `readline` session fed the characters of `s` in
order and then one submit key (`KEY_ENTER`, newline or carriage return)
returns, the text it returns is exactly `s`, and the History Store afterwards
is `H` with the one line `s` appended. -/
theorem readline_round_trip (buffer : Mem) (H : CHistory) (s : List Nat) (enter : Int)
    (hprint : ∀ b ∈ s, isprint (b : Int) = true)
    (hlen : (s.length : Int) ≤ buflen - 1)
    (henter : enter = KEY_ENTER ∨ enter = 10 ∨ enter = 13) :
    ∃ r, readline buffer buflen H home (s.map Int.ofNat ++ [enter]) = some r
      ∧ r.text = s ∧ r.hist.lines = H.lines ++ [s] := by
  obtain ⟨s1, h1, h2, h3, h4, h5⟩ :=
    loop_typed buflen H home s (fresh buffer H) [enter] rfl hprint
      (by simpa [fresh] using hlen)
  have hsub : loop buflen H home s1 [enter] = .returned (loop_head s1) := by
    simp [loop, iteration, dispatch, henter]
  have h0 : 0 ∉ s := by
    intro hz
    have := (isprint_bounds (hprint 0 hz)).1
    omega
  have htext : cells (poke (loop_head s1).buffer (loop_head s1).len 0)
      ((loop_head s1).len + 1) = s ++ [0] := by
    rw [cells_succ, cells_poke_len]
    have : cells (loop_head s1).buffer (loop_head s1).len = s := by
      have := text_loop_head s1
      rw [EditState.text] at this
      rw [this, h2]
      simp [fresh, EditState.text, cells]
    rw [this]
    simp [poke]
  have hr : readline buffer buflen H home (s.map Int.ofNat ++ [enter])
      = some { buffer := poke (loop_head s1).buffer (loop_head s1).len 0
               terminator := (loop_head s1).len
               hist := H.add (c_str (cells (poke (loop_head s1).buffer (loop_head s1).len 0)
                        ((loop_head s1).len + 1))) } := by
    simp only [readline, h1, hsub]
  refine ⟨_, hr, ?_, ?_⟩
  · simp only [Returned.text]
    rw [htext]
    exact c_str_append_zero s [] h0
  · simp only [CHistory.add]
    rw [htext, c_str_append_zero s [] h0]

/-- The round trip of C1 on the line `abc` with capacity 4. -/
theorem readline_round_trip_witness :
    ∃ r, readline (fun _ => 0) 4 ⟨[bytes "first"]⟩ none [97, 98, 99, 10] = some r
      ∧ r.text = bytes "abc" ∧ r.hist.lines = [bytes "first", bytes "abc"] :=
  readline_round_trip 4 none (fun _ => 0) ⟨[bytes "first"]⟩ [97, 98, 99] 10
    (by decide) (by decide) (by decide)

/-- C2, at an input where the code departs from it.  With capacity 3 the line
`ab` is full (`len = 2 = capacity - 1`); with the cursor at 0 the printable key
`c` is nevertheless inserted: the line becomes `cab` with `len = 3`, and no
alert is raised.  The guard of the printable branch tests `pos`, not `len`. -/
theorem printable_on_full_line_inserts :
    ∃ s1, iteration 3 ⟨[]⟩ none
            { buffer := strcpy (fun _ => 0) (bytes "ab"), pos := 0, len := 2, hoff := 0 } 99
          = .next s1 false
      ∧ s1.text = bytes "cab" ∧ s1.pos = 1 ∧ s1.len = 3 :=
  ⟨_, iteration_printable 3 ⟨[]⟩ none _ 99 (by decide) (by decide), by decide, rfl, rfl⟩

/-- C3, at an input where the code departs from it.  With capacity 2 the keys
`a`, left arrow, `b`, newline make `readline` return the two-character line
`ba`, whose terminator is written at index 2, outside the buffer. -/
theorem readline_exceeds_capacity :
    ∃ r, readline (fun _ => 0) 2 ⟨[]⟩ none [97, KEY_LEFT, 98, 10] = some r
      ∧ r.text = bytes "ba" ∧ r.text.length = 2 ∧ r.terminator = 2 :=
  ⟨_, rfl, by decide, by decide, rfl⟩

/-! ## The line editor: deletion -/

theorem iteration_backspace (s : EditState) (h : 0 < s.pos) :
    iteration buflen hist home s KEY_BACKSPACE
      = .next { buffer := memmove (loop_head s).buffer (s.pos - 1) s.pos (s.len - s.pos)
                pos := s.pos - 1
                len := s.len - 1
                hoff := s.hoff } false := by
  simp [iteration, dispatch, KEY_BACKSPACE, KEY_ENTER, KEY_LEFT, KEY_UP, KEY_DOWN, KEY_RIGHT,
    isprint, loop_head, h]

theorem iteration_backspace_at_start (s : EditState) (h : s.pos = 0) :
    iteration buflen hist home s KEY_BACKSPACE = .next (loop_head s) true := by
  simp [iteration, dispatch, KEY_BACKSPACE, KEY_ENTER, KEY_LEFT, KEY_UP, KEY_DOWN, KEY_RIGHT,
    isprint, loop_head, h]

theorem iteration_delete (s : EditState) (h : s.pos < s.len) :
    iteration buflen hist home s KEY_DC
      = .next { buffer := memmove (loop_head s).buffer s.pos (s.pos + 1) (s.len - s.pos - 1)
                pos := s.pos
                len := s.len - 1
                hoff := s.hoff } false := by
  simp [iteration, dispatch, KEY_DC, KEY_BACKSPACE, KEY_ENTER, KEY_LEFT, KEY_UP, KEY_DOWN,
    KEY_RIGHT, isprint, loop_head, h]

theorem iteration_delete_at_end (s : EditState) (h : ¬ s.pos < s.len) :
    iteration buflen hist home s KEY_DC = .next (loop_head s) true := by
  simp [iteration, dispatch, KEY_DC, KEY_BACKSPACE, KEY_ENTER, KEY_LEFT, KEY_UP, KEY_DOWN,
    KEY_RIGHT, isprint, loop_head, h]

/-- The text after a `memmove` that closes the gap at index `p`. -/
theorem text_delete (s : EditState) (p : Nat) (h : p < s.len) :
    cells (memmove (loop_head s).buffer p (p + 1) (s.len - (p + 1))) (s.len - 1)
      = s.text.take p ++ s.text.drop (p + 1) := by
  have := cells_delete (loop_head s).buffer p s.len h
  rw [this]
  simp [loop_head, EditState.text, cells_poke_len]

/-- C4.  Deletion events, for every editor state with `pos ≤ len`.  Backspace
with `pos > 0` removes the character before the cursor and decreases `pos` and
`len` by one; delete-forward with `pos < len` removes the character at the
cursor, decreases `len` by one and keeps `pos`; backspace at `pos = 0` and
delete-forward at `pos = len` leave text, `pos` and `len` as they were and
raise the alert.  None of them touches the history offset. -/
theorem deletion_events (s : EditState) (hpl : s.pos ≤ s.len) :
    (0 < s.pos → ∃ s1, iteration buflen hist home s KEY_BACKSPACE = .next s1 false
        ∧ s1.text = s.text.take (s.pos - 1) ++ s.text.drop s.pos
        ∧ s1.pos = s.pos - 1 ∧ s1.len = s.len - 1 ∧ s1.hoff = s.hoff)
    ∧ (s.pos < s.len → ∃ s1, iteration buflen hist home s KEY_DC = .next s1 false
        ∧ s1.text = s.text.take s.pos ++ s.text.drop (s.pos + 1)
        ∧ s1.pos = s.pos ∧ s1.len = s.len - 1 ∧ s1.hoff = s.hoff)
    ∧ (s.pos = 0 → ∃ s1, iteration buflen hist home s KEY_BACKSPACE = .next s1 true
        ∧ s1.text = s.text ∧ s1.pos = s.pos ∧ s1.len = s.len ∧ s1.hoff = s.hoff)
    ∧ (s.pos = s.len → ∃ s1, iteration buflen hist home s KEY_DC = .next s1 true
        ∧ s1.text = s.text ∧ s1.pos = s.pos ∧ s1.len = s.len ∧ s1.hoff = s.hoff) := by
  refine ⟨fun h => ?_, fun h => ?_, fun h => ?_, fun h => ?_⟩
  · refine ⟨_, iteration_backspace buflen hist home s h, ?_, rfl, rfl, rfl⟩
    have h1 : s.pos - 1 < s.len := by omega
    have h2 := text_delete s (s.pos - 1) h1
    have h3 : s.pos - 1 + 1 = s.pos := by omega
    rw [h3] at h2
    exact h2
  · refine ⟨_, iteration_delete buflen hist home s h, ?_, rfl, rfl, rfl⟩
    have h2 := text_delete s s.pos h
    rw [Nat.sub_add_eq] at h2
    exact h2
  · exact ⟨_, iteration_backspace_at_start buflen hist home s h, text_loop_head s, rfl, rfl, rfl⟩
  · exact ⟨_, iteration_delete_at_end buflen hist home s (by omega), text_loop_head s,
      rfl, rfl, rfl⟩

/-- The deletions of C4 on the line `abc` with the cursor after `b`: backspace
gives `ac` with the cursor at 1, delete-forward gives `ab` with the cursor
at 2. -/
theorem deletion_events_witness :
    (∃ s1, iteration 80 ⟨[]⟩ none
            { buffer := strcpy (fun _ => 0) (bytes "abc"), pos := 2, len := 3, hoff := 0 }
            KEY_BACKSPACE = .next s1 false
        ∧ s1.text = bytes "ac" ∧ s1.pos = 1 ∧ s1.len = 2)
    ∧ (∃ s1, iteration 80 ⟨[]⟩ none
            { buffer := strcpy (fun _ => 0) (bytes "abc"), pos := 2, len := 3, hoff := 0 }
            KEY_DC = .next s1 false
        ∧ s1.text = bytes "ab" ∧ s1.pos = 2 ∧ s1.len = 2) := by
  have h := deletion_events 80 ⟨[]⟩ none
    { buffer := strcpy (fun _ => 0) (bytes "abc"), pos := 2, len := 3, hoff := 0 } (by decide)
  obtain ⟨s1, e1, t1, p1, l1, _⟩ := h.1 (by decide)
  obtain ⟨s2, e2, t2, p2, l2, _⟩ := h.2.1 (by decide)
  exact ⟨⟨s1, e1, by rw [t1]; decide, p1, l1⟩, ⟨s2, e2, by rw [t2]; decide, p2, l2⟩⟩

/-! ## The line editor: history -/

theorem loop_append (xs ys : List Int) :
    ∀ (s s1 : EditState), loop buflen hist home s xs = .waiting s1 →
      loop buflen hist home s (xs ++ ys) = loop buflen hist home s1 ys := by
  induction xs with
  | nil =>
    intro s s1 h
    simp only [loop, Run.waiting.injEq] at h
    simp [h]
  | cons c cs ih =>
    intro s s1 h
    simp only [List.cons_append, loop] at h ⊢
    cases hit : iteration buflen hist home s c with
    | submit => rw [hit] at h; cases h
    | next s2 beep =>
      rw [hit] at h
      simp only at h ⊢
      exact ih s2 s1 h
    | fault => rw [hit] at h; cases h

theorem iteration_up (s : EditState) (ent : List Nat) (h : 0 ≤ s.hoff - 1)
    (hent : hist.at_ (s.hoff - 1) = some ent) :
    iteration buflen hist home s KEY_UP
      = .next { buffer := strcpy (loop_head s).buffer ent
                pos := strlen ent
                len := strlen ent
                hoff := s.hoff - 1 } false := by
  simp [iteration, dispatch, KEY_ENTER, KEY_LEFT, KEY_UP, isprint, loop_head, h, hent]

theorem iteration_up_at_oldest (s : EditState) (h : ¬ 0 ≤ s.hoff - 1) :
    iteration buflen hist home s KEY_UP
      = .next { buffer := (loop_head s).buffer
                pos := s.pos
                len := s.len
                hoff := 0 } true := by
  simp [iteration, dispatch, KEY_ENTER, KEY_LEFT, KEY_UP, isprint, loop_head, h]

theorem at_eq_getElem? (H : CHistory) (i : Nat) : H.at_ (i : Int) = H.lines[i]? := by
  simp [CHistory.at_]

/-- After `k ≤ size` history-previous keys in a fresh session the history
offset is `size - k` and, when `k > 0`, the line is the entry at that offset. -/
theorem loop_ups (buffer : Mem) (H : CHistory) :
    ∀ k, k ≤ H.lines.length →
      ∃ s, loop buflen H home (fresh buffer H) (List.replicate k KEY_UP) = .waiting s
        ∧ s.hoff = ((H.lines.length - k : Nat) : Int)
        ∧ (0 < k → ∃ ent, H.lines[H.lines.length - k]? = some ent
            ∧ s.text = c_str ent ∧ s.pos = strlen ent ∧ s.len = strlen ent) := by
  intro k
  induction k with
  | zero =>
    intro _
    exact ⟨fresh buffer H, rfl, by simp [fresh, CHistory.size], fun h => absurd h (by decide)⟩
  | succ k ih =>
    intro hk
    obtain ⟨s, hs, hoff, -⟩ := ih (by omega)
    have hidx : H.lines.length - (k + 1) < H.lines.length := by omega
    have hsub : s.hoff - 1 = ((H.lines.length - (k + 1) : Nat) : Int) := by
      rw [hoff]; omega
    have hent : H.at_ (s.hoff - 1) = some (H.lines[H.lines.length - (k + 1)]) := by
      rw [hsub, at_eq_getElem?, List.getElem?_eq_getElem hidx]
    have hstep := iteration_up buflen H home s _ (by rw [hsub]; omega) hent
    refine ⟨{ buffer := strcpy (loop_head s).buffer (H.lines[H.lines.length - (k + 1)])
              pos := strlen (H.lines[H.lines.length - (k + 1)])
              len := strlen (H.lines[H.lines.length - (k + 1)])
              hoff := s.hoff - 1 }, ?_, hsub,
      fun _ => ⟨H.lines[H.lines.length - (k + 1)], List.getElem?_eq_getElem hidx, ?_, rfl, rfl⟩⟩
    · rw [List.replicate_succ', loop_append buflen H home _ _ _ _ hs]
      simp only [loop, hstep]
    · simp only [EditState.text]
      exact cells_strcpy_strlen _ _

/-- Further history-previous keys, once the oldest entry is shown, keep it. -/
theorem loop_ups_beyond (buffer : Mem) (H : CHistory) (hne : H.lines ≠ []) :
    ∀ m, ∃ s ent, loop buflen H home (fresh buffer H)
            (List.replicate (H.lines.length + m) KEY_UP) = .waiting s
        ∧ s.hoff = 0 ∧ H.lines[0]? = some ent
        ∧ s.text = c_str ent ∧ s.pos = strlen ent ∧ s.len = strlen ent := by
  have hlen : 0 < H.lines.length := List.length_pos.mpr hne
  intro m
  induction m with
  | zero =>
    obtain ⟨s, hs, hoff, h⟩ := loop_ups buflen home buffer H H.lines.length le_rfl
    obtain ⟨ent, he, ht, hp, hl⟩ := h hlen
    refine ⟨s, ent, hs, by simpa using hoff, by simpa using he, ht, hp, hl⟩
  | succ m ih =>
    obtain ⟨s, ent, hs, hoff, he, ht, hp, hl⟩ := ih
    have hstep := iteration_up_at_oldest buflen H home s (by rw [hoff]; decide)
    refine ⟨{ buffer := (loop_head s).buffer, pos := s.pos, len := s.len, hoff := 0 },
      ent, ?_, rfl, he, ?_, hp, hl⟩
    · rw [← Nat.add_assoc, List.replicate_succ', loop_append buflen H home _ _ _ _ hs]
      simp only [loop, hstep]
    · rw [← ht]
      exact text_loop_head s

/-- C5.  History-previous navigation: for every History Store of `n ≥ 1`
lines (each a string without embedded terminator, shorter than the capacity)
and a fresh session, after `k` history-previous keys with `1 ≤ k ≤ n` the line
is the entry `h[n-k]`, with `pos = len = |h[n-k]|` and the history offset at
`n - k`; after `n` or more such keys, one more leaves the line equal to
`h[0]`, keeps the history offset at 0 and raises the alert. -/
theorem history_previous (buffer : Mem) (H : CHistory) (hne : H.lines ≠ [])
    (_hcap : ∀ e ∈ H.lines, (e.length : Int) < buflen)
    (hstr : ∀ e ∈ H.lines, 0 ∉ e) :
    (∀ k, 1 ≤ k → k ≤ H.lines.length →
      ∃ s e, loop buflen H home (fresh buffer H) (List.replicate k KEY_UP) = .waiting s
        ∧ H.lines[H.lines.length - k]? = some e
        ∧ s.text = e ∧ s.pos = e.length ∧ s.len = e.length
        ∧ s.hoff = ((H.lines.length - k : Nat) : Int))
    ∧ (∀ m, ∃ s s1 e, loop buflen H home (fresh buffer H)
            (List.replicate (H.lines.length + m) KEY_UP) = .waiting s
        ∧ iteration buflen H home s KEY_UP = .next s1 true
        ∧ H.lines[0]? = some e
        ∧ s1.text = e ∧ s1.pos = e.length ∧ s1.len = e.length ∧ s1.hoff = 0) := by
  constructor
  · intro k hk1 hk2
    obtain ⟨s, hs, hoff, h⟩ := loop_ups buflen home buffer H k hk2
    obtain ⟨ent, he, ht, hp, hl⟩ := h (by omega)
    have h0 : 0 ∉ ent := hstr ent (List.getElem?_mem he)
    rw [c_str_of_not_mem h0] at ht
    rw [strlen_of_not_mem h0] at hp hl
    exact ⟨s, ent, hs, he, ht, hp, hl, hoff⟩
  · intro m
    obtain ⟨s, ent, hs, hoff, he, ht, hp, hl⟩ := loop_ups_beyond buflen home buffer H hne m
    have h0 : 0 ∉ ent := hstr ent (List.getElem?_mem he)
    rw [c_str_of_not_mem h0] at ht
    rw [strlen_of_not_mem h0] at hp hl
    refine ⟨s, { buffer := (loop_head s).buffer, pos := s.pos, len := s.len, hoff := 0 },
      ent, hs, iteration_up_at_oldest buflen H home s (by rw [hoff]; decide),
      he, ?_, hp, hl, rfl⟩
    rw [← ht]
    exact text_loop_head s

/-- The navigation of C5 on the History Store `first`, `second`: one
history-previous key shows `second`, two show `first`, and a third leaves
`first` and raises the alert. -/
theorem history_previous_witness :
    (∃ s, loop 80 ⟨[bytes "first", bytes "second"]⟩ none
            (fresh (fun _ => 0) ⟨[bytes "first", bytes "second"]⟩) [KEY_UP] = .waiting s
        ∧ s.text = bytes "second" ∧ s.pos = 6 ∧ s.len = 6)
    ∧ (∃ s, loop 80 ⟨[bytes "first", bytes "second"]⟩ none
            (fresh (fun _ => 0) ⟨[bytes "first", bytes "second"]⟩) [KEY_UP, KEY_UP]
          = .waiting s
        ∧ s.text = bytes "first" ∧ s.pos = 5 ∧ s.len = 5)
    ∧ (∃ s s1, loop 80 ⟨[bytes "first", bytes "second"]⟩ none
            (fresh (fun _ => 0) ⟨[bytes "first", bytes "second"]⟩) [KEY_UP, KEY_UP]
          = .waiting s
        ∧ iteration 80 ⟨[bytes "first", bytes "second"]⟩ none s KEY_UP = .next s1 true
        ∧ s1.text = bytes "first" ∧ s1.hoff = 0) := by
  have h := history_previous 80 none (fun _ => 0) ⟨[bytes "first", bytes "second"]⟩
    (by decide) (by decide) (by decide)
  obtain ⟨s, e, h1, h2, h3, h4, h5, _⟩ := h.1 1 (by decide) (by decide)
  obtain ⟨t, f, k1, k2, k3, k4, k5, _⟩ := h.1 2 (by decide) (by decide)
  obtain ⟨u, u1, g, m1, m2, m3, m4, _, _, m7⟩ := h.2 0
  have he : e = bytes "second" := Option.some.inj (h2.symm.trans (by decide))
  have hf : f = bytes "first" := Option.some.inj (k2.symm.trans (by decide))
  have hg : g = bytes "first" := Option.some.inj (m3.symm.trans (by decide))
  subst he hf hg
  exact ⟨⟨s, h1, h3, h4, h5⟩, ⟨t, k1, k3, k4, k5⟩, ⟨u, u1, m1, m2, m4, m7⟩⟩

/-! ## The line editor: completion -/

theorem functions_no_terminator : ∀ f ∈ functions, 0 ∉ bytes f := by decide

/-- The completion branch on a line that holds no terminator and does not
begin with `~`, with the cursor past position 0: the whole line
`buffer[0 .. len)` is looked up in the table. -/
theorem iteration_tab (s : EditState) (hpos : 0 < s.pos) (hpl : s.pos ≤ s.len)
    (h0 : 0 ∉ s.text) (htilde : s.text.head? ≠ some 126) :
    iteration buflen hist home s 9
      = match functions.find? (fun f => decide (s.text <+: bytes f)) with
        | some e => .next { buffer := strcpy (loop_head s).buffer (bytes e)
                            pos := strlen (bytes e)
                            len := strlen (bytes e)
                            hoff := s.hoff } false
        | none => .next (loop_head s) false := by
  have hlen : 0 < s.len := lt_of_lt_of_le hpos hpl
  have hcells : cells (loop_head s).buffer s.len = s.text := text_loop_head s
  have hfirst : (loop_head s).buffer 0 ≠ 126 := by
    intro h
    apply htilde
    have hb : (loop_head s).buffer 0 = s.buffer 0 := by
      simp [loop_head, poke, hlen.ne]
    have ht : s.text.head? = some (s.buffer 0) := by
      rw [List.head?_eq_getElem?]
      simp [EditState.text, cells, hlen]
    rw [ht, ← hb, h]
  have htest : strncmp_eq (loop_head s).buffer (cell (bytes "~")) 0 1 = false := by
    have hc : cell (bytes "~") 0 = 126 := by decide
    simp [strncmp_eq, hc, hfirst]
  have hget : get_completion home (loop_head s).buffer s.len
      = (functions.find? (fun f => decide (s.text <+: bytes f))).map bytes := by
    simp only [get_completion, get_completion_in, htest, Bool.false_eq_true, false_and,
      if_false]
    rw [first_match_eq _ _ (by rw [hcells]; exact h0), hcells]
  have hcond : 0 < (loop_head s).len ∧ 0 < (loop_head s).pos := ⟨hlen, hpos⟩
  have hlh : (loop_head s).len = s.len := rfl
  simp only [iteration, dispatch, KEY_ENTER, isprint]
  rw [if_pos True.intro, if_pos hcond, hlh, hget]
  cases functions.find? (fun f => decide (s.text <+: bytes f)) <;> rfl

/-- The completion branch, in terms of the line before and after. -/
theorem completion_lookup (s : EditState) (hpos : 0 < s.pos) (hpl : s.pos ≤ s.len)
    (h0 : 0 ∉ s.text) (htilde : s.text.head? ≠ some 126) :
    ((∃ f ∈ functions, s.text <+: bytes f) →
      ∃ e s1, functions.find? (fun f => decide (s.text <+: bytes f)) = some e
        ∧ iteration buflen hist home s 9 = .next s1 false
        ∧ s1.text = bytes e ∧ s1.pos = (bytes e).length ∧ s1.len = (bytes e).length
        ∧ s1.hoff = s.hoff)
    ∧ ((∀ f ∈ functions, ¬ s.text <+: bytes f) →
      ∃ s1, iteration buflen hist home s 9 = .next s1 false
        ∧ s1.text = s.text ∧ s1.pos = s.pos ∧ s1.len = s.len ∧ s1.hoff = s.hoff) := by
  have hstep := iteration_tab buflen hist home s hpos hpl h0 htilde
  constructor
  · rintro ⟨f, hf, hpre⟩
    cases hfind : functions.find? (fun f => decide (s.text <+: bytes f)) with
    | none =>
      rw [List.find?_eq_none] at hfind
      exact absurd hpre (by simpa using hfind f hf)
    | some e =>
      rw [hfind] at hstep
      have hz : 0 ∉ bytes e := functions_no_terminator e (List.mem_of_find?_eq_some hfind)
      refine ⟨e, _, rfl, hstep, ?_, strlen_of_not_mem hz, strlen_of_not_mem hz, rfl⟩
      simp only [EditState.text]
      rw [cells_strcpy_strlen, c_str_of_not_mem hz]
  · intro hno
    have hfind : functions.find? (fun f => decide (s.text <+: bytes f)) = none := by
      rw [List.find?_eq_none]
      intro f hf
      simpa using hno f hf
    rw [hfind] at hstep
    exact ⟨_, hstep, text_loop_head s, rfl, rfl, rfl⟩

/-- C6.  Completion with the cursor at the end of the line: for every
non-empty line `t` (a string without embedded terminator) that does not begin
with `~`, with `pos = len = |t|`: if some entry of the table has `t` as an
initial segment, the completion key replaces the line with the first such
entry `e` in table order and sets `pos = len = |e|`; if none has, text, `pos`
and `len` are unchanged.  No alert is raised in either case. -/
theorem completion_at_end (s : EditState) (hne : 0 < s.len) (hend : s.pos = s.len)
    (h0 : 0 ∉ s.text) (htilde : s.text.head? ≠ some 126) :
    ((∃ f ∈ functions, s.text <+: bytes f) →
      ∃ e s1, functions.find? (fun f => decide (s.text <+: bytes f)) = some e
        ∧ iteration buflen hist home s 9 = .next s1 false
        ∧ s1.text = bytes e ∧ s1.pos = (bytes e).length ∧ s1.len = (bytes e).length)
    ∧ ((∀ f ∈ functions, ¬ s.text <+: bytes f) →
      ∃ s1, iteration buflen hist home s 9 = .next s1 false
        ∧ s1.text = s.text ∧ s1.pos = s.pos ∧ s1.len = s.len) := by
  have h := completion_lookup buflen hist home s (by omega) (le_of_eq hend) h0 htilde
  constructor
  · intro hex
    obtain ⟨e, s1, h1, h2, h3, h4, h5, _⟩ := h.1 hex
    exact ⟨e, s1, h1, h2, h3, h4, h5⟩
  · intro hno
    obtain ⟨s1, h1, h2, h3, h4, _⟩ := h.2 hno
    exact ⟨s1, h1, h2, h3, h4⟩

/-- The completion of C6 on the line `abo`, which becomes `abort` with
`pos = len = 5`, and on the line `zzz`, which stays. -/
theorem completion_at_end_witness :
    (∃ s1, iteration 80 ⟨[]⟩ none
            { buffer := strcpy (fun _ => 0) (bytes "abo"), pos := 3, len := 3, hoff := 0 } 9
          = .next s1 false
        ∧ s1.text = bytes "abort" ∧ s1.pos = 5 ∧ s1.len = 5)
    ∧ (∃ s1, iteration 80 ⟨[]⟩ none
            { buffer := strcpy (fun _ => 0) (bytes "zzz"), pos := 3, len := 3, hoff := 0 } 9
          = .next s1 false
        ∧ s1.text = bytes "zzz" ∧ s1.pos = 3 ∧ s1.len = 3) := by
  obtain ⟨e, s1, h1, h2, h3, h4, h5⟩ := (completion_at_end 80 ⟨[]⟩ none
    { buffer := strcpy (fun _ => 0) (bytes "abo"), pos := 3, len := 3, hoff := 0 }
    (by decide) (by decide) (by decide) (by decide)).1 (by decide)
  have he : e = "abort" := Option.some.inj (h1.symm.trans (by decide))
  subst he
  obtain ⟨s2, k1, k2, k3, k4⟩ := (completion_at_end 80 ⟨[]⟩ none
    { buffer := strcpy (fun _ => 0) (bytes "zzz"), pos := 3, len := 3, hoff := 0 }
    (by decide) (by decide) (by decide) (by decide)).2 (by decide)
  exact ⟨⟨s1, h2, h3, h4, h5⟩, ⟨s2, k1, by rw [k2]; decide, k3, k4⟩⟩

/-- C7 fails as stated: on the line `abox` with the cursor at position 3 the
completion key does not produce `abort`; text, `pos` and `len` stay as they
were, because the lookup compares all four characters. -/
theorem completion_before_cursor_counterexample :
    ∃ s1, iteration 80 ⟨[]⟩ none
            { buffer := strcpy (fun _ => 0) (bytes "abox"), pos := 3, len := 4, hoff := 0 } 9
          = .next s1 false
      ∧ s1.text = bytes "abox" ∧ s1.pos = 3 ∧ s1.len = 4 ∧ s1.text ≠ bytes "abort" :=
  ⟨_, rfl, by decide, rfl, rfl, by decide⟩

/-- C7, amended.  Completion is keyed on the whole line, not on the part before
the cursor: for every line `t` (a string without embedded terminator) not
beginning with `~` and every cursor `0 < pos ≤ len`, the completion key looks
up all of `t = buffer[0 .. len)`.  If some entry of the table has `t` as an
initial segment the line becomes the first such entry `e`, with
`pos = len = |e|`; otherwise text, `pos` and `len` are unchanged.  The
characters after the cursor take part in the lookup. -/
theorem completion_whole_line (s : EditState) (hpos : 0 < s.pos) (hpl : s.pos ≤ s.len)
    (h0 : 0 ∉ s.text) (htilde : s.text.head? ≠ some 126) :
    ((∃ f ∈ functions, s.text <+: bytes f) →
      ∃ e s1, functions.find? (fun f => decide (s.text <+: bytes f)) = some e
        ∧ iteration buflen hist home s 9 = .next s1 false
        ∧ s1.text = bytes e ∧ s1.pos = (bytes e).length ∧ s1.len = (bytes e).length)
    ∧ ((∀ f ∈ functions, ¬ s.text <+: bytes f) →
      ∃ s1, iteration buflen hist home s 9 = .next s1 false
        ∧ s1.text = s.text ∧ s1.pos = s.pos ∧ s1.len = s.len) := by
  have h := completion_lookup buflen hist home s hpos hpl h0 htilde
  constructor
  · intro hex
    obtain ⟨e, s1, h1, h2, h3, h4, h5, _⟩ := h.1 hex
    exact ⟨e, s1, h1, h2, h3, h4, h5⟩
  · intro hno
    obtain ⟨s1, h1, h2, h3, h4, _⟩ := h.2 hno
    exact ⟨s1, h1, h2, h3, h4⟩

/-- The amended C7 on the line `abort` with the cursor at 3, where the whole
line is found in the table, and on the line `abox` with the cursor at 3, where
it is not although `abo` would be. -/
theorem completion_whole_line_witness :
    (∃ s1, iteration 80 ⟨[]⟩ none
            { buffer := strcpy (fun _ => 0) (bytes "abor"), pos := 3, len := 4, hoff := 0 } 9
          = .next s1 false
        ∧ s1.text = bytes "abort" ∧ s1.pos = 5 ∧ s1.len = 5)
    ∧ (∃ s1, iteration 80 ⟨[]⟩ none
            { buffer := strcpy (fun _ => 0) (bytes "abox"), pos := 3, len := 4, hoff := 0 } 9
          = .next s1 false
        ∧ s1.text = bytes "abox" ∧ s1.pos = 3 ∧ s1.len = 4) := by
  obtain ⟨e, s1, h1, h2, h3, h4, h5⟩ := (completion_whole_line 80 ⟨[]⟩ none
    { buffer := strcpy (fun _ => 0) (bytes "abor"), pos := 3, len := 4, hoff := 0 }
    (by decide) (by decide) (by decide) (by decide)).1 (by decide)
  have he : e = "abort" := Option.some.inj (h1.symm.trans (by decide))
  subst he
  obtain ⟨s2, k1, k2, k3, k4⟩ := (completion_whole_line 80 ⟨[]⟩ none
    { buffer := strcpy (fun _ => 0) (bytes "abox"), pos := 3, len := 4, hoff := 0 }
    (by decide) (by decide) (by decide) (by decide)).2 (by decide)
  exact ⟨⟨s1, h2, h3, h4, h5⟩, ⟨s2, k1, by rw [k2]; decide, k3, k4⟩⟩

/-! ## The line editor: alerts -/

/-- C8 fails as stated: with the one-line History Store `a`, after one
history-previous key (history offset 0) the history-next key raises the alert
and moves the history offset from 0 to 1, the size of the store. -/
theorem alert_moves_history_offset_counterexample :
    ∃ s s1, loop 80 ⟨[bytes "a"]⟩ none (fresh (fun _ => 0) ⟨[bytes "a"]⟩) [KEY_UP]
          = .waiting s
      ∧ iteration 80 ⟨[bytes "a"]⟩ none s KEY_DOWN = .next s1 true
      ∧ s.hoff = 0 ∧ s1.hoff = 1 :=
  ⟨_, _, rfl, rfl, rfl, rfl⟩

/-- C8, amended.  For every editor state whose history offset lies in
`[0, size]` and every key: if processing the key raises the alert, then the
text, `pos` and `len` are the same before and after, and so is the history
offset, except for the history-next key at offset `size - 1`, which raises the
alert and moves the offset to `size`. -/
theorem alert_keeps_line (s s1 : EditState) (c : Int)
    (hrange : 0 ≤ s.hoff ∧ s.hoff ≤ hist.size)
    (h : iteration buflen hist home s c = .next s1 true) :
    s1.text = s.text ∧ s1.pos = s.pos ∧ s1.len = s.len
      ∧ (s1.hoff = s.hoff
          ∨ (c = KEY_DOWN ∧ s.hoff = hist.size - 1 ∧ s1.hoff = hist.size)) := by
  obtain ⟨hlo, hhi⟩ := hrange
  have hoff : (loop_head s).hoff = s.hoff := rfl
  simp only [iteration, dispatch] at h
  by_cases h1 : c = KEY_ENTER ∨ c = 10 ∨ c = 13
  · rw [if_pos h1] at h; cases h
  rw [if_neg h1] at h
  by_cases h2 : isprint c = true
  · rw [if_pos h2] at h
    by_cases h3 : ((loop_head s).pos : Int) < buflen - 1
    · rw [if_pos h3] at h; cases h
    · rw [if_neg h3] at h; cases h
      exact ⟨text_loop_head s, rfl, rfl, Or.inl rfl⟩
  rw [if_neg h2] at h
  by_cases h3 : c = 9
  · rw [if_pos h3] at h
    by_cases h4 : 0 < (loop_head s).len ∧ 0 < (loop_head s).pos
    · rw [if_pos h4] at h
      split at h <;> cases h
    · rw [if_neg h4] at h; cases h
  rw [if_neg h3] at h
  by_cases h4 : c = 1
  · rw [if_pos h4] at h; cases h
  rw [if_neg h4] at h
  by_cases h5 : c = 5
  · rw [if_pos h5] at h; cases h
  rw [if_neg h5] at h
  by_cases h6 : c = KEY_LEFT
  · rw [if_pos h6] at h
    by_cases h7 : 0 < (loop_head s).pos
    · rw [if_pos h7] at h; cases h
    · rw [if_neg h7] at h; cases h
      exact ⟨text_loop_head s, rfl, rfl, Or.inl rfl⟩
  rw [if_neg h6] at h
  by_cases h7 : c = KEY_UP
  · rw [if_pos h7] at h
    by_cases h8 : 0 ≤ (loop_head s).hoff - 1
    · rw [if_pos h8] at h
      split at h <;> cases h
    · rw [if_neg h8] at h; cases h
      refine ⟨text_loop_head s, rfl, rfl, Or.inl ?_⟩
      show (0 : Int) = s.hoff
      rw [hoff] at h8
      omega
  rw [if_neg h7] at h
  by_cases h8 : c = KEY_DOWN
  · rw [if_pos h8] at h
    by_cases h9 : (loop_head s).hoff + 1 < hist.size
    · rw [if_pos h9] at h
      split at h <;> cases h
    · rw [if_neg h9] at h; cases h
      refine ⟨text_loop_head s, rfl, rfl, ?_⟩
      rw [hoff] at h9
      by_cases he : s.hoff = hist.size
      · left; exact he.symm
      · right
        refine ⟨h8, ?_, rfl⟩
        omega
  rw [if_neg h8] at h
  by_cases h9 : c = KEY_RIGHT
  · rw [if_pos h9] at h
    by_cases h10 : (loop_head s).pos < (loop_head s).len
    · rw [if_pos h10] at h; cases h
    · rw [if_neg h10] at h; cases h
      exact ⟨text_loop_head s, rfl, rfl, Or.inl rfl⟩
  rw [if_neg h9] at h
  by_cases h10 : c = KEY_BACKSPACE
  · rw [if_pos h10] at h
    by_cases h11 : 0 < (loop_head s).pos
    · rw [if_pos h11] at h; cases h
    · rw [if_neg h11] at h; cases h
      exact ⟨text_loop_head s, rfl, rfl, Or.inl rfl⟩
  rw [if_neg h10] at h
  by_cases h11 : c = KEY_DC
  · rw [if_pos h11] at h
    by_cases h12 : (loop_head s).pos < (loop_head s).len
    · rw [if_pos h12] at h; cases h
    · rw [if_neg h12] at h; cases h
      exact ⟨text_loop_head s, rfl, rfl, Or.inl rfl⟩
  rw [if_neg h11] at h
  cases h
  exact ⟨text_loop_head s, rfl, rfl, Or.inl rfl⟩

/-- The amended C8 on the empty line of a fresh session, where backspace raises
the alert. -/
theorem alert_keeps_line_witness :
    iteration 80 ⟨[]⟩ none (fresh (fun _ => 0) ⟨[]⟩) KEY_BACKSPACE
        = .next (loop_head (fresh (fun _ => 0) ⟨[]⟩)) true
      ∧ (loop_head (fresh (fun _ => 0) ⟨[]⟩)).text = (fresh (fun _ => 0) ⟨[]⟩).text
      ∧ (loop_head (fresh (fun _ => 0) ⟨[]⟩)).pos = 0
      ∧ (loop_head (fresh (fun _ => 0) ⟨[]⟩)).len = 0
      ∧ (loop_head (fresh (fun _ => 0) ⟨[]⟩)).hoff = 0 := by
  have h := alert_keeps_line 80 ⟨[]⟩ none (fresh (fun _ => 0) ⟨[]⟩)
    (loop_head (fresh (fun _ => 0) ⟨[]⟩)) KEY_BACKSPACE (by decide) rfl
  exact ⟨rfl, h.1, h.2.1, h.2.2.1, rfl⟩

/-! ## The renderers: selection -/

section Renderers

variable {F M : Type}

theorem mem_row_reads {height selected count i : Int} (h : i ∈ row_reads height selected count) :
    selected ≤ i ∧ i < count := by
  rw [row_reads, List.mem_filterMap] at h
  obtain ⟨row, _, hrow⟩ := h
  have hr : (0 : Int) ≤ (row : Int) := Int.ofNat_nonneg row
  split at hrow
  · simp only [Option.some.injEq] at hrow
    omega
  · cases hrow

theorem drawMaildir_stale (height : Int) (g : CGlobal F M) (hne : g.folders ≠ [])
    (hsel : g.selected_folder ≥ g.folders.length) :
    drawMaildir height g
      = { global := { g with selected_folder := 0 },
          reads := row_reads height 0 g.folders.length } := by
  have hlen : 0 < g.folders.length := List.length_pos.mpr hne
  have h1 : ¬ ((g.folders.length : Int) < 1) := by omega
  simp only [drawMaildir, h1, if_false, hsel, if_true]

theorem drawMaildir_fresh (height : Int) (g : CGlobal F M) (hne : g.folders ≠ [])
    (hsel : g.selected_folder < g.folders.length) :
    drawMaildir height g
      = { global := g, reads := row_reads height g.selected_folder g.folders.length } := by
  have hlen : 0 < g.folders.length := List.length_pos.mpr hne
  have h1 : ¬ ((g.folders.length : Int) < 1) := by omega
  have h2 : ¬ (g.selected_folder ≥ (g.folders.length : Int)) := by omega
  simp only [drawMaildir, h1, if_false, h2]

theorem drawIndex_stale (height : Int) (g : CGlobal F M) (ms : List M)
    (hms : g.messages = some ms) (hne : ms ≠ [])
    (hsel : g.selected_message ≥ ms.length) :
    drawIndex height g
      = { global := { g with selected_message := (ms.length : Int) - 1 },
          reads := row_reads height ((ms.length : Int) - 1) ms.length } := by
  have hlen : 0 < ms.length := List.length_pos.mpr hne
  have h1 : ¬ (ms.length < 1) := by omega
  simp only [drawIndex, hms, h1, if_false, hsel, if_true]

theorem drawIndex_fresh (height : Int) (g : CGlobal F M) (ms : List M)
    (hms : g.messages = some ms) (hne : ms ≠ [])
    (hsel : g.selected_message < ms.length) :
    drawIndex height g
      = { global := g, reads := row_reads height g.selected_message ms.length } := by
  have hlen : 0 < ms.length := List.length_pos.mpr hne
  have h1 : ¬ (ms.length < 1) := by omega
  have h2 : ¬ (g.selected_message ≥ (ms.length : Int)) := by omega
  simp only [drawIndex, hms, h1, if_false, h2]

theorem drawMessage_stale (g : CGlobal F M) (ms : List M)
    (hms : g.messages = some ms) (hne : ms ≠ [])
    (hsel : g.selected_message ≥ ms.length) :
    drawMessage g
      = some { global := { g with selected_message := (ms.length : Int) - 1 },
               reads := [(ms.length : Int) - 1] } := by
  have hlen : 0 < ms.length := List.length_pos.mpr hne
  have h1 : (ms.length : Int) - 1 < ms.length ∧ (ms.length : Int) > 0 := by omega
  simp only [drawMessage, hms, hsel, if_true, h1, and_self]

theorem drawMessage_fresh (g : CGlobal F M) (ms : List M)
    (hms : g.messages = some ms) (hne : ms ≠ [])
    (hsel : g.selected_message < ms.length) :
    drawMessage g = some { global := g, reads := [g.selected_message] } := by
  have hlen : 0 < ms.length := List.length_pos.mpr hne
  have h2 : ¬ (g.selected_message ≥ (ms.length : Int)) := by omega
  have h1 : g.selected_message < ms.length ∧ (ms.length : Int) > 0 := by omega
  simp only [drawMessage, hms, h2, if_false, h1, and_self, if_true]

theorem refresh_maildir (height : Int) (g : CGlobal F M) (h : g.global_mode = "maildir") :
    refresh_display height g = some (drawMaildir height g) := by
  simp [refresh_display, h]

theorem refresh_index (height : Int) (g : CGlobal F M) (h : g.global_mode = "index") :
    refresh_display height g = some (drawIndex height g) := by
  simp [refresh_display, h]

theorem refresh_message (g : CGlobal F M) (height : Int) (h : g.global_mode = "message") :
    refresh_display height g = drawMessage g := by
  simp [refresh_display, h]

/-- C9.  Stale-selection clamp value.  For every non-empty folder sequence and
every stored folder index `≥ count`, one refresh in folder-list mode leaves the
stored folder index equal to 0; for every non-empty message sequence and every
stored message index `≥ count`, one refresh in message-index or message-view
mode leaves the stored message index equal to `count - 1`; in each case a
second refresh of the resulting state leaves the stored index at that same
value. -/
theorem stale_selection_clamp (height1 height2 : Int) (g : CGlobal F M) :
    (g.global_mode = "maildir" → g.folders ≠ [] →
      g.selected_folder ≥ g.folders.length →
      ∃ d1 d2, refresh_display height1 g = some d1
        ∧ d1.global.selected_folder = 0
        ∧ refresh_display height2 d1.global = some d2
        ∧ d2.global.selected_folder = 0)
    ∧ (∀ ms, (g.global_mode = "index" ∨ g.global_mode = "message") →
      g.messages = some ms → ms ≠ [] → g.selected_message ≥ ms.length →
      ∃ d1 d2, refresh_display height1 g = some d1
        ∧ d1.global.selected_message = (ms.length : Int) - 1
        ∧ refresh_display height2 d1.global = some d2
        ∧ d2.global.selected_message = (ms.length : Int) - 1) := by
  constructor
  · intro hmode hne hsel
    have hlen : 0 < g.folders.length := List.length_pos.mpr hne
    refine ⟨{ global := { g with selected_folder := 0 },
              reads := row_reads height1 0 g.folders.length },
            { global := { g with selected_folder := 0 },
              reads := row_reads height2 0 g.folders.length }, ?_, rfl, ?_, rfl⟩
    · rw [refresh_maildir height1 g hmode, drawMaildir_stale height1 g hne hsel]
    · show refresh_display height2 { g with selected_folder := 0 } = _
      rw [refresh_maildir height2 { g with selected_folder := 0 } hmode,
        drawMaildir_fresh height2 { g with selected_folder := 0 } hne
          (by show (0 : Int) < g.folders.length; omega)]
  · intro ms hmode hms hne hsel
    have hlen : 0 < ms.length := List.length_pos.mpr hne
    rcases hmode with hmode | hmode
    · refine ⟨{ global := { g with selected_message := (ms.length : Int) - 1 },
                reads := row_reads height1 ((ms.length : Int) - 1) ms.length },
              { global := { g with selected_message := (ms.length : Int) - 1 },
                reads := row_reads height2 ((ms.length : Int) - 1) ms.length },
              ?_, rfl, ?_, rfl⟩
      · rw [refresh_index height1 g hmode, drawIndex_stale height1 g ms hms hne hsel]
      · show refresh_display height2 { g with selected_message := (ms.length : Int) - 1 } = _
        rw [refresh_index height2 { g with selected_message := (ms.length : Int) - 1 } hmode,
          drawIndex_fresh height2 { g with selected_message := (ms.length : Int) - 1 } ms hms
            hne (by show (ms.length : Int) - 1 < ms.length; omega)]
    · refine ⟨{ global := { g with selected_message := (ms.length : Int) - 1 },
                reads := [(ms.length : Int) - 1] },
              { global := { g with selected_message := (ms.length : Int) - 1 },
                reads := [(ms.length : Int) - 1] },
              ?_, rfl, ?_, rfl⟩
      · rw [refresh_message g height1 hmode, drawMessage_stale g ms hms hne hsel]
      · show refresh_display height2 { g with selected_message := (ms.length : Int) - 1 } = _
        rw [refresh_message { g with selected_message := (ms.length : Int) - 1 } height2 hmode,
          drawMessage_fresh { g with selected_message := (ms.length : Int) - 1 } ms hms
            hne (by show (ms.length : Int) - 1 < ms.length; omega)]

/-- In message-view mode on an empty message sequence the clamp comes before
the emptiness test: a stored message index `≥ 0` is replaced by `-1`. -/
theorem drawMessage_empty (g : CGlobal F M) (hms : g.messages = some [])
    (hsel : 0 ≤ g.selected_message) :
    drawMessage g = some { global := { g with selected_message := -1 }, reads := [] } := by
  have h1 : g.selected_message ≥ ((([] : List M).length : Nat) : Int) := by simpa using hsel
  simp [drawMessage, hms, hsel]

/-- The clamp of C9 on two folders with the stored folder index 5, and on three
messages with the stored message index 7 in message-index mode. -/
theorem stale_selection_clamp_witness :
    (∃ d1 d2, refresh_display 24
          ({ global_mode := "maildir", folders := [(), ()], messages := none,
             selected_folder := 5, selected_message := 0 } : CGlobal Unit Unit) = some d1
        ∧ d1.global.selected_folder = 0
        ∧ refresh_display 24 d1.global = some d2
        ∧ d2.global.selected_folder = 0)
    ∧ (∃ d1 d2, refresh_display 24
          ({ global_mode := "index", folders := [()], messages := some [(), (), ()],
             selected_folder := 0, selected_message := 7 } : CGlobal Unit Unit) = some d1
        ∧ d1.global.selected_message = 2
        ∧ refresh_display 24 d1.global = some d2
        ∧ d2.global.selected_message = 2) :=
  ⟨(stale_selection_clamp 24 24
      ({ global_mode := "maildir", folders := [(), ()], messages := none,
         selected_folder := 5, selected_message := 0 } : CGlobal Unit Unit)).1
      (by decide) (by decide) (by decide),
   (stale_selection_clamp 24 24
      ({ global_mode := "index", folders := [()], messages := some [(), (), ()],
         selected_folder := 0, selected_message := 7 } : CGlobal Unit Unit)).2
      [(), (), ()] (Or.inl (by decide)) rfl (by decide) (by decide)⟩

/-- C10 fails as stated: in folder-list mode with three folders and the stored
folder index `-1`, one refresh leaves the stored index at `-1` and accesses the
folder sequence at index `-1`. -/
theorem negative_selection_counterexample :
    ∃ d, refresh_display 24
          ({ global_mode := "maildir", folders := [(), (), ()], messages := none,
             selected_folder := -1, selected_message := 0 } : CGlobal Unit Unit) = some d
      ∧ d.global.selected_folder = -1 ∧ (-1 : Int) ∈ d.reads :=
  ⟨_, rfl, rfl, by decide⟩

theorem drawMaildir_empty (height : Int) (g : CGlobal F M) (he : g.folders = []) :
    drawMaildir height g = { global := g, reads := [] } := by
  simp [drawMaildir, he]

theorem drawIndex_empty (height : Int) (g : CGlobal F M)
    (he : g.messages = none ∨ g.messages = some []) :
    drawIndex height g = { global := g, reads := [] } := by
  rcases he with he | he <;> simp [drawIndex, he]

/-- C10, amended.  Selection-range invariant for a stored highlighted index
that is not negative on entry.  The folder-list and the message-index renderer
leave it non-negative for every sequence, the empty one included; and for each
of the three renderers, whenever the sequence is non-empty, after one refresh
the stored index lies in `[0, count)` and every index at which the renderer
accesses the sequence lies in `[0, count)`. -/
theorem selection_in_range (height : Int) (g : CGlobal F M) :
    (g.global_mode = "maildir" → 0 ≤ g.selected_folder →
      ∃ d, refresh_display height g = some d
        ∧ 0 ≤ d.global.selected_folder
        ∧ (g.folders ≠ [] → d.global.selected_folder < g.folders.length)
        ∧ ∀ i ∈ d.reads, 0 ≤ i ∧ i < g.folders.length)
    ∧ (g.global_mode = "index" → 0 ≤ g.selected_message →
      ∃ d, refresh_display height g = some d
        ∧ 0 ≤ d.global.selected_message
        ∧ (g.messages = none → d.reads = [])
        ∧ ∀ ms, g.messages = some ms →
            (ms ≠ [] → d.global.selected_message < ms.length)
            ∧ ∀ i ∈ d.reads, 0 ≤ i ∧ i < ms.length)
    ∧ (g.global_mode = "message" → 0 ≤ g.selected_message →
      ∀ ms, g.messages = some ms → ms ≠ [] →
        ∃ d, refresh_display height g = some d
          ∧ 0 ≤ d.global.selected_message
          ∧ d.global.selected_message < ms.length
          ∧ ∀ i ∈ d.reads, 0 ≤ i ∧ i < ms.length) := by
  refine ⟨fun hmode hsel => ?_, fun hmode hsel => ?_, fun hmode hsel ms hms hne => ?_⟩
  · rw [refresh_maildir height g hmode]
    refine ⟨_, rfl, ?_⟩
    by_cases he : g.folders = []
    · rw [drawMaildir_empty height g he]
      exact ⟨hsel, fun h => absurd he h, fun i hi => (by cases hi)⟩
    · by_cases hst : g.selected_folder ≥ g.folders.length
      · rw [drawMaildir_stale height g he hst]
        have hlen : 0 < g.folders.length := List.length_pos.mpr he
        refine ⟨le_refl _, fun _ => (by show (0 : Int) < g.folders.length; omega), ?_⟩
        intro i hi
        have := mem_row_reads hi
        omega
      · rw [drawMaildir_fresh height g he (by omega)]
        refine ⟨hsel, fun _ => (by show g.selected_folder < g.folders.length; omega), ?_⟩
        intro i hi
        have := mem_row_reads hi
        omega
  · rw [refresh_index height g hmode]
    refine ⟨_, rfl, ?_⟩
    cases hms : g.messages with
    | none =>
      rw [drawIndex_empty height g (Or.inl hms)]
      exact ⟨hsel, fun _ => rfl, fun ms h => (by cases h)⟩
    | some ms =>
      by_cases he : ms = []
      · rw [drawIndex_empty height g (Or.inr (by rw [hms, he]))]
        refine ⟨hsel, fun h => (by cases h), fun ms1 h1 => ?_⟩
        exact ⟨fun h2 => absurd (by rw [← Option.some.inj h1, he]) h2,
          fun i hi => (by cases hi)⟩
      · have hlen : 0 < ms.length := List.length_pos.mpr he
        by_cases hst : g.selected_message ≥ ms.length
        · rw [drawIndex_stale height g ms hms he hst]
          refine ⟨(by show (0 : Int) ≤ (ms.length : Int) - 1; omega), fun h => (by cases h),
            fun ms1 h1 => ?_⟩
          have heq : ms = ms1 := Option.some.inj h1
          subst heq
          refine ⟨fun _ => (by show (ms.length : Int) - 1 < ms.length; omega), ?_⟩
          intro i hi
          have := mem_row_reads hi
          omega
        · rw [drawIndex_fresh height g ms hms he (by omega)]
          refine ⟨hsel, fun h => (by cases h), fun ms1 h1 => ?_⟩
          have heq : ms = ms1 := Option.some.inj h1
          subst heq
          refine ⟨fun _ => (by show g.selected_message < ms.length; omega), ?_⟩
          intro i hi
          have := mem_row_reads hi
          omega
  · rw [refresh_message g height hmode]
    have hlen : 0 < ms.length := List.length_pos.mpr hne
    by_cases hst : g.selected_message ≥ ms.length
    · rw [drawMessage_stale g ms hms hne hst]
      refine ⟨_, rfl, (by show (0 : Int) ≤ (ms.length : Int) - 1; omega),
        (by show (ms.length : Int) - 1 < ms.length; omega), ?_⟩
      intro i hi
      simp only [List.mem_singleton] at hi
      omega
    · rw [drawMessage_fresh g ms hms hne (by omega)]
      refine ⟨_, rfl, hsel, (by show g.selected_message < ms.length; omega), ?_⟩
      intro i hi
      simp only [List.mem_singleton] at hi
      omega

/-- The amended C10 on three folders with the stored folder index 7 and a
terminal of 24 rows: the stored index becomes 0 and the rows read the folders
0, 1 and 2. -/
theorem selection_in_range_witness :
    ∃ d, refresh_display 24
          ({ global_mode := "maildir", folders := [(), (), ()], messages := none,
             selected_folder := 7, selected_message := 0 } : CGlobal Unit Unit) = some d
      ∧ 0 ≤ d.global.selected_folder ∧ d.global.selected_folder < 3
      ∧ ∀ i ∈ d.reads, 0 ≤ i ∧ i < 3 := by
  obtain ⟨d, h1, h2, h3, h4⟩ := (selection_in_range 24
    ({ global_mode := "maildir", folders := [(), (), ()], messages := none,
       selected_folder := 7, selected_message := 0 } : CGlobal Unit Unit)).1
    (by decide) (by decide)
  exact ⟨d, h1, h2, h3 (by decide), h4⟩

end Renderers

/-! ## The renderers: header rows -/

theorem to_size_t_of_nonneg {x : Int} (h0 : 0 ≤ x) (h1 : x < 18446744073709551616) :
    to_size_t x = x.toNat := by
  unfold to_size_t
  rw [Int.emod_eq_of_lt h0 h1]

theorem c_str_take {v : List Nat} (h : 0 ∉ v) (n : Nat) : c_str (v.take n) = v.take n :=
  c_str_of_not_mem fun hm => h (List.mem_of_mem_take hm)

/-- On a terminal wide enough for the label, `width ≥ |name| + 4`, the header
row is the name, a colon and a space, and the first `width - |name| - 4`
characters of the value. -/
theorem header_text_wide (width : Int) (id name value : List Nat)
    (hname : header_name id = some name) (h0 : 0 ∉ name) (hv : 0 ∉ value)
    (hw : (name.length : Int) + 4 ≤ width) (hw2 : width < 18446744073709551616) :
    header_text width id value
      = some (name ++ bytes ": " ++ value.take (width - name.length - 4).toNat) := by
  simp only [header_text, hname]
  rw [to_size_t_of_nonneg (by omega) (by omega), c_str_of_not_mem h0, c_str_take hv]

/-- C14, at an input where the code departs from it.  On a terminal 10 columns
wide the header `$SUBJECT` leaves `10 - 7 - 4 = -1` columns for the value; the
subtraction is made in `size_t`, gives a huge length, and the value is shown
whole: the row has 32 characters.  On a terminal 20 columns wide the same row
is cut to 18 characters. -/
theorem header_row_narrow_terminal :
    header_text 10 (bytes "$SUBJECT") (bytes "Meeting moved to Friday")
        = some (bytes "Subject: Meeting moved to Friday")
      ∧ (bytes "Subject: Meeting moved to Friday").length = 32
      ∧ header_text 20 (bytes "$SUBJECT") (bytes "Meeting moved to Friday")
        = some (bytes "Subject: Meeting m") := by
  decide

/-! ## The renderers: the rows of the message index -/

theorem gather_map {α : Type} (f : α → Option (List Call)) (h : α → List Call) (l : List α)
    (hf : ∀ x ∈ l, f x = some (h x)) :
    gather (l.map f) = some ((l.map h).flatten) := by
  induction l with
  | nil => rfl
  | cons x xs ih =>
    have h1 := hf x (by simp)
    have h2 := ih (fun y hy => hf y (by simp [hy]))
    simp only [List.map_cons, gather, h1, h2, List.flatten_cons]

theorem drawn_from_index_row (r0 : Int) (row : Nat) (unread : Bool) (text : List Nat)
    (rest : List Call) :
    drawn_from r0 (index_row_calls row unread text ++ rest)
      = ((row : Int), text) :: drawn_from row rest := by
  cases unread <;> by_cases h : row = 0 <;> simp [index_row_calls, h, drawn_from]

theorem drawn_from_index_rows (unread : Nat → Bool) (text : Nat → List Nat) (l : List Nat) :
    ∀ r0, drawn_from r0 ((l.map fun (r : Nat) => index_row_calls r (unread r) (text r)).flatten)
      = l.map fun (r : Nat) => ((r : Int), text r) := by
  induction l with
  | nil => intro r0; rfl
  | cons x xs ih =>
    intro r0
    simp only [List.map_cons, List.flatten_cons]
    rw [drawn_from_index_row, ih]

/-- The text of a row of the index, for a line without terminator on a
terminal at least 3 columns wide: the first `width - 3` characters of the
line, then spaces up to `width - 3` characters. -/
theorem index_text_eq (width : Int) (line : List Nat) (hw : 3 ≤ width) (h0 : 0 ∉ line) :
    index_text width line
      = some (line.take (width - 3).toNat
          ++ List.replicate ((width - 3).toNat - line.length) 32) := by
  have hpad : (width - 3 - (line.length : Int)).toNat = (width - 3).toNat - line.length := by
    omega
  by_cases hlong : (width - 3).toNat < line.length
  · have hrep : (width - 3).toNat - line.length = 0 := by omega
    have hgt : ((pad line (width - 3)).length : Int) > width - 3 := by
      simp only [pad, hpad, hrep, List.replicate_zero, List.append_nil]
      omega
    simp only [index_text, hgt, if_true, if_pos (show 0 ≤ width - 3 by omega)]
    simp only [pad, hpad, hrep, List.replicate_zero, List.append_nil]
    rw [List.set_eq_take_cons_drop 0 hlong]
    rw [c_str_append_zero _ _ (fun hm => h0 (List.mem_of_mem_take hm))]
  · have hle : line.length ≤ (width - 3).toNat := by omega
    have hlen : ¬ ((pad line (width - 3)).length : Int) > width - 3 := by
      simp only [pad, hpad, List.length_append, List.length_replicate]
      omega
    simp only [index_text, hlen, if_false]
    simp only [pad, hpad]
    rw [List.take_of_length_le hle]
    rw [c_str_of_not_mem]
    intro hm
    rcases List.mem_append.mp hm with h1 | h1
    · exact h0 h1
    · have := List.eq_of_mem_replicate h1
      omega

theorem at_index_of_lt {α : Type} (v : List α) (i : Int) (h0 : 0 ≤ i) (h1 : i < v.length) :
    ∃ x, at_index v i = some x ∧ x ∈ v := by
  have hi : i.toNat < v.length := by omega
  refine ⟨v[i.toNat], ?_, List.getElem_mem hi⟩
  simp [at_index, h0, List.getElem?_eq_getElem hi]

theorem at_index_of_ge {α : Type} (v : List α) (i : Int) (h1 : (v.length : Int) ≤ i) :
    at_index v i = none := by
  have hi : v.length ≤ i.toNat := by omega
  simp [at_index, List.getElem?_eq_none hi]

/-- The index the row loops of `drawIndex` start from is the stored index that
`drawIndex` leaves behind. -/
theorem drawIndex_selected {F : Type} (height : Int) (g : CGlobal F CMessage)
    (ms : List CMessage) (hms : g.messages = some ms) (hne : ms ≠ [])
    (hsel : 0 ≤ g.selected_message) :
    (if g.selected_message ≥ (ms.length : Int) then (ms.length : Int) - 1
      else g.selected_message) = (drawIndex height g).global.selected_message
    ∧ 0 ≤ (drawIndex height g).global.selected_message
    ∧ (drawIndex height g).global.selected_message < ms.length := by
  have hlen : 0 < ms.length := List.length_pos.mpr hne
  by_cases hst : g.selected_message ≥ ms.length
  · rw [drawIndex_stale height g ms hms hne hst, if_pos hst]
    refine ⟨rfl, ?_, ?_⟩
    · show (0 : Int) ≤ (ms.length : Int) - 1
      omega
    · show (ms.length : Int) - 1 < ms.length
      omega
  · rw [drawIndex_fresh height g ms hms hne (by omega), if_neg hst]
    exact ⟨rfl, hsel, by show g.selected_message < ms.length; omega⟩

/-- C12.  Message-index row text: on a terminal of width `W ≥ 3` and height
`H`, for a non-empty message sequence whose formatted lines hold no embedded
terminator, with `selected` the clamped index that `drawIndex` leaves in the
shared state, the lines drawn are exactly one per row `r` with
`0 ≤ r < H - 1`, in order; the text on row `r` is the first `W - 3`
characters of `f_r` followed by spaces up to `W - 3` characters, where `f_r`
is the formatted line of the message at `selected + r` when there is one and
the empty string otherwise.  So every text has exactly `W - 3` characters and
no row `≥ H - 1` is drawn. -/
theorem index_row_text {F : Type} (sc : Scene) (g : CGlobal F CMessage)
    (ms : List CMessage) (hms : g.messages = some ms) (hne : ms ≠ [])
    (hw : 3 ≤ sc.width) (hsel : 0 ≤ g.selected_message)
    (hstr : ∀ m ∈ ms, 0 ∉ m.format) :
    ∃ calls, drawIndex_calls sc g = some calls
      ∧ drawn calls = (List.range (sc.height - 1).toNat).map (fun (r : Nat) =>
          ((r : Int),
            (((at_index ms ((r : Int) + (drawIndex sc.height g).global.selected_message)).map
                fun m => m.format).getD []).take (sc.width - 3).toNat
            ++ List.replicate ((sc.width - 3).toNat
                - (((at_index ms ((r : Int) + (drawIndex sc.height g).global.selected_message)).map
                      fun m => m.format).getD []).length) 32))
      ∧ (∀ l ∈ drawn calls, l.2.length = (sc.width - 3).toNat)
      ∧ (∀ l ∈ drawn calls, 0 ≤ l.1 ∧ l.1 < sc.height - 1) := by
  have hlen : 0 < ms.length := List.length_pos.mpr hne
  have hn1 : ¬ (ms.length < 1) := by omega
  obtain ⟨hdef, hsel0, hsel1⟩ := drawIndex_selected sc.height g ms hms hne hsel
  generalize (drawIndex sc.height g).global.selected_message = sel at hdef hsel0 hsel1 ⊢
  have hrow : ∀ r ∈ List.range (sc.height - 1).toNat,
      index_row sc ms sel r
        = some (index_row_calls r
            (((at_index ms ((r : Int) + sel)).map fun m => decide (78 ∈ m.flags)).getD false)
            ((((at_index ms ((r : Int) + sel)).map fun m => m.format).getD []).take
                (sc.width - 3).toNat
              ++ List.replicate ((sc.width - 3).toNat
                  - (((at_index ms ((r : Int) + sel)).map fun m => m.format).getD []).length)
                  32)) := by
    intro r _
    by_cases hlt : (r : Int) + sel < ms.length
    · obtain ⟨cur, hat, hmem⟩ := at_index_of_lt ms ((r : Int) + sel) (by omega) hlt
      simp only [index_row, hlt, if_true, hat, Option.map_some', Option.getD_some,
        index_text_eq sc.width cur.format hw (hstr cur hmem)]
    · have hat := at_index_of_ge ms ((r : Int) + sel) (by omega)
      simp only [index_row, hlt, if_false, hat, Option.map_none', Option.getD_none,
        index_text_eq sc.width [] hw (by simp)]
  have hcalls : drawIndex_calls sc g
      = some (((List.range (sc.height - 1).toNat).map fun (r : Nat) =>
          index_row_calls r
            (((at_index ms ((r : Int) + sel)).map fun m => decide (78 ∈ m.flags)).getD false)
            ((((at_index ms ((r : Int) + sel)).map fun m => m.format).getD []).take
                (sc.width - 3).toNat
              ++ List.replicate ((sc.width - 3).toNat
                  - (((at_index ms ((r : Int) + sel)).map fun m => m.format).getD []).length)
                  32)).flatten) := by
    simp only [drawIndex_calls, hms, hn1, if_false, hdef]
    exact gather_map _ _ _ hrow
  have hdrawn := drawn_from_index_rows
    (fun r => ((at_index ms ((r : Int) + sel)).map fun m => decide (78 ∈ m.flags)).getD false)
    (fun r => (((at_index ms ((r : Int) + sel)).map fun m => m.format).getD []).take
                (sc.width - 3).toNat
              ++ List.replicate ((sc.width - 3).toNat
                  - (((at_index ms ((r : Int) + sel)).map fun m => m.format).getD []).length)
                  32)
    (List.range (sc.height - 1).toNat) 0
  refine ⟨_, hcalls, hdrawn, ?_, ?_⟩
  · intro l hl
    rw [drawn, hdrawn, List.mem_map] at hl
    obtain ⟨r, _, rfl⟩ := hl
    simp only [List.length_append, List.length_take, List.length_replicate]
    omega
  · intro l hl
    rw [drawn, hdrawn, List.mem_map] at hl
    obtain ⟨r, hr, rfl⟩ := hl
    rw [List.mem_range] at hr
    constructor
    · exact Int.ofNat_nonneg r
    · show (r : Int) < sc.height - 1
      omega

/-- The rows of C12 on a terminal 8 columns wide and 4 rows high, with the
lines `abcdefgh` and `xy`: the first is cut to five characters, the second
padded to five, and the third row is blank. -/
theorem index_row_text_witness :
    ∃ calls, drawIndex_calls (sample_scene 8 4)
          ({ global_mode := "index", folders := [],
             messages := some [sample_message (bytes "abcdefgh") [] [],
                               sample_message (bytes "xy") [] []],
             selected_folder := 0, selected_message := 0 } : CGlobal Unit CMessage)
          = some calls
      ∧ drawn calls = [(0, bytes "abcde"), (1, bytes "xy   "), (2, bytes "     ")] := by
  obtain ⟨calls, h1, h2, _, _⟩ := index_row_text (sample_scene 8 4)
    ({ global_mode := "index", folders := [],
       messages := some [sample_message (bytes "abcdefgh") [] [],
                         sample_message (bytes "xy") [] []],
       selected_folder := 0, selected_message := 0 } : CGlobal Unit CMessage)
    [sample_message (bytes "abcdefgh") [] [], sample_message (bytes "xy") [] []]
    rfl (by simp) (by decide) (by decide) (by decide)
  exact ⟨calls, h1, h2.trans (by decide)⟩

/-! ## The renderers: the message view -/

theorem line_calls_append (a b : List (Int × List Nat)) :
    line_calls (a ++ b) = line_calls a ++ line_calls b := by
  simp [line_calls]

theorem line_calls_cons (p : Int × List Nat) (ps : List (Int × List Nat)) :
    line_calls (p :: ps) = [Call.move p.1 0, Call.printw p.2] ++ line_calls ps := by
  simp [line_calls]

theorem drawn_from_line_calls (ps : List (Int × List Nat)) (script : List Nat) :
    ∀ r0, drawn_from r0 (line_calls ps ++ [Call.lua script]) = ps := by
  induction ps with
  | nil => intro r0; simp [line_calls, drawn_from]
  | cons p ps ih =>
    intro r0
    rw [line_calls_cons]
    simp [drawn_from, ih]

theorem header_text_some (width : Int) (id value : List Nat) (h : id ≠ []) :
    ∃ text, header_text width id value = some text := by
  have hlen : ¬ (id.length < 1) := by
    have := List.length_pos.mpr h
    omega
  unfold header_text header_name
  rw [if_neg hlen]
  cases (id.drop 1).map tolower <;> exact ⟨_, rfl⟩

theorem range_succ_rows (row n : Nat) :
    (List.range (n + 1)).map (fun (k : Nat) => ((row + k : Nat) : Int))
      = ((row : Nat) : Int)
        :: (List.range n).map (fun (k : Nat) => ((row + 1 + k : Nat) : Int)) := by
  rw [List.range_succ_eq_map, List.map_cons, List.map_map]
  simp only [Nat.add_zero, List.cons.injEq, true_and]
  apply List.map_congr_left
  intro k _
  simp only [Function.comp]
  congr 1
  omega

/-- The header loop draws one line per identifier, on consecutive rows. -/
theorem header_calls_lines (width : Int) (cur : CMessage) (ids : List (List Nat)) :
    ∀ row, (∀ id ∈ ids, id ≠ []) →
      ∃ ps, header_calls width cur row ids = some (line_calls ps)
        ∧ ps.map Prod.fst
            = (List.range ids.length).map (fun (k : Nat) => ((row + k : Nat) : Int)) := by
  induction ids with
  | nil => intro row _; exact ⟨[], rfl, rfl⟩
  | cons id rest ih =>
    intro row hids
    obtain ⟨text, htext⟩ := header_text_some width id (cur.format_of id) (hids id (by simp))
    obtain ⟨ps, h1, h2⟩ := ih (row + 1) (fun x hx => hids x (by simp [hx]))
    refine ⟨((row : Int), text) :: ps, ?_, ?_⟩
    · simp only [header_calls, htext, h1, line_calls_cons]
    · rw [List.length_cons, range_succ_rows, List.map_cons, h2]

/-- The attachment loop draws one line per attachment, on consecutive rows. -/
theorem attachment_calls_lines (paths : List (List Nat)) :
    ∀ row acount,
      ∃ ps, attachment_calls row acount paths = line_calls ps
        ∧ ps.map Prod.fst
            = (List.range paths.length).map (fun (k : Nat) => ((row + k : Nat) : Int)) := by
  induction paths with
  | nil => intro row acount; exact ⟨[], rfl, rfl⟩
  | cons path rest ih =>
    intro row acount
    obtain ⟨ps, h1, h2⟩ := ih (row + 1) (acount + 1)
    refine ⟨((row : Int), bytes "Attachment " ++ decimal acount ++ bytes " - " ++ c_str path)
      :: ps, ?_, ?_⟩
    · simp only [attachment_calls, h1, line_calls_cons]
    · rw [List.length_cons, range_succ_rows, List.map_cons, h2]

theorem to_int_le {x : Int} (h : 0 ≤ x) : to_int x ≤ x := by
  unfold to_int
  omega

theorem to_int_to_size_t {x : Int} (h1 : -2147483648 ≤ x) (h2 : x < 2147483648) :
    to_int (to_size_t x) = x := by
  unfold to_int to_size_t
  omega

/-- With a scroll offset that is not negative, the body loop draws one line
per pass. -/
theorem body_calls_lines (sc : Scene) (body : List (List Nat)) (nh na : Nat)
    (hoff : 0 ≤ sc.message_offset) :
    ∃ ps, body_calls sc body nh na = some (line_calls ps)
      ∧ ps.map Prod.fst
          = (List.range (body_max sc.height body.length nh na - 2).toNat).map
              (fun (i : Nat) => to_int (to_size_t ((i : Int) + (nh + na + 1)))) := by
  have hrow : ∀ i ∈ List.range (body_max sc.height body.length nh na - 2).toNat,
      body_row sc body nh na i
        = some [Call.move (to_int (to_size_t ((i : Int) + (nh + na + 1)))) 0,
                Call.printw (if (i : Int) + sc.message_offset < to_int body.length then
                  c_str ((at_index body ((i : Int) + sc.message_offset)).getD []) else [])] := by
    intro i _
    by_cases hlt : (i : Int) + sc.message_offset < to_int body.length
    · have hle := to_int_le (show (0 : Int) ≤ (body.length : Int) by omega)
      obtain ⟨line, hat, _⟩ := at_index_of_lt body ((i : Int) + sc.message_offset)
        (by omega) (by omega)
      simp only [body_row, hlt, if_true, hat, Option.getD_some]
    · simp only [body_row, hlt, if_false]
  refine ⟨(List.range (body_max sc.height body.length nh na - 2).toNat).map (fun (i : Nat) =>
      (to_int (to_size_t ((i : Int) + (nh + na + 1))),
        if (i : Int) + sc.message_offset < to_int body.length then
          c_str ((at_index body ((i : Int) + sc.message_offset)).getD []) else [])), ?_, ?_⟩
  · rw [body_calls, gather_map _ _ _ hrow, line_calls, List.map_map]
    simp only [Function.comp_def]
  · rw [List.map_map]
    simp only [Function.comp_def]

theorem drawn_message (hs as bs : List (Int × List Nat)) (x y : List Nat) :
    drawn ([Call.lua x] ++ line_calls hs ++ line_calls as ++ line_calls bs ++ [Call.lua y])
      = hs ++ as ++ bs := by
  have h : [Call.lua x] ++ line_calls hs ++ line_calls as ++ line_calls bs ++ [Call.lua y]
      = Call.lua x :: (line_calls (hs ++ as ++ bs) ++ [Call.lua y]) := by
    simp [line_calls_append]
  rw [h]
  show drawn_from 0 (line_calls (hs ++ as ++ bs) ++ [Call.lua y]) = hs ++ as ++ bs
  exact drawn_from_line_calls _ _ 0

theorem body_count_le (m H h a : Int) (hm : m ≤ H - h - a) :
    (((m - 2).toNat : Nat) : Int) ≤ max 0 (H - h - a - 2) := by
  omega

theorem body_row_lt (m H : Int) (nh na i : Nat) (hm : m ≤ H - nh - na)
    (hi : i < (m - 2).toNat) (hH : 0 ≤ H ∧ H < 2147483648) :
    to_int (to_size_t ((i : Int) + (nh + na + 1))) < H - 1 := by
  rw [to_int_to_size_t (by omega) (by omega)]
  omega

/-- C11, at an input where the code departs from it.  On a terminal 5 rows
high, a message with the four built-in headers and two attachments has its
header lines drawn on rows 0 to 3, its first attachment on row 4 and its
second attachment on row 5, which is not a row of the terminal.  The header
and attachment loops do not compare their row with the height. -/
theorem attachment_drawn_below_screen :
    ∃ calls, drawMessage_calls (sample_scene 80 5)
          ({ global_mode := "message", folders := [],
             messages := some [sample_message [] [bytes "a.txt", bytes "b.txt"] []],
             selected_folder := 0, selected_message := 0 } : CGlobal Unit CMessage)
          = some calls
      ∧ (drawn calls).map Prod.fst = [0, 1, 2, 3, 4, 5]
      ∧ ((5 : Int), bytes "Attachment 2 - b.txt") ∈ drawn calls := by
  refine ⟨_, rfl, ?_, ?_⟩ <;> decide

/-- What holds of the message view, for a non-empty message sequence, a
stored index and a scroll offset that are not negative, header identifiers
that are not empty, a terminal height `0 ≤ H < 2^31` and a header count `h`
and attachment count `a` with `h + a ≤ 2^31`, the range in which the
conversion of `H - h - a` from `size_t` to `int` is exact.  The renderer
draws the `h` header lines on rows `0 .. h-1`, the `a` attachment lines on
rows `h .. h+a-1` and then the body lines; it draws at most `H - h - a - 2`
body lines, none when that quantity is not positive, and every body line is on
a row `< H - 1`. -/
theorem message_view_bounds {F : Type} (sc : Scene) (g : CGlobal F CMessage)
    (ms : List CMessage) (hms : g.messages = some ms) (hne : ms ≠ [])
    (hsel : 0 ≤ g.selected_message) (hoff : 0 ≤ sc.message_offset)
    (hids : ∀ id ∈ shown_headers sc, id ≠ [])
    (hH : 0 ≤ sc.height ∧ sc.height < 2147483648)
    (hsize : ∀ m ∈ ms, (shown_headers sc).length + m.attachments.length ≤ 2147483648) :
    ∃ cur calls hs as bs,
      at_index ms (if g.selected_message ≥ (ms.length : Int) then (ms.length : Int) - 1
          else g.selected_message) = some cur
      ∧ drawMessage_calls sc g = some calls
      ∧ drawn calls = hs ++ as ++ bs
      ∧ hs.map Prod.fst
          = (List.range (shown_headers sc).length).map (fun (k : Nat) => (k : Int))
      ∧ as.map Prod.fst
          = (List.range cur.attachments.length).map
              (fun (k : Nat) => (((shown_headers sc).length + k : Nat) : Int))
      ∧ (bs.length : Int)
          ≤ max 0 (sc.height - (shown_headers sc).length - cur.attachments.length - 2)
      ∧ ∀ l ∈ bs, l.1 < sc.height - 1 := by
  have hlen : 0 < ms.length := List.length_pos.mpr hne
  have hin : (if g.selected_message ≥ (ms.length : Int) then (ms.length : Int) - 1
      else g.selected_message) < (ms.length : Int) ∧ (ms.length : Int) > 0 := by
    split <;> omega
  obtain ⟨cur, hat, hmem⟩ := at_index_of_lt ms
    (if g.selected_message ≥ (ms.length : Int) then (ms.length : Int) - 1
      else g.selected_message) (by split <;> omega) hin.1
  have hha := hsize cur hmem
  obtain ⟨hs, hh1, hh2⟩ := header_calls_lines sc.width cur (shown_headers sc) 0 hids
  obtain ⟨as, ha1, ha2⟩ :=
    attachment_calls_lines cur.attachments (shown_headers sc).length 1
  obtain ⟨bs, hb1, hb2⟩ :=
    body_calls_lines sc cur.body (shown_headers sc).length cur.attachments.length hoff
  have hconv : to_int (to_size_t (sc.height - ((shown_headers sc).length : Int)
      - (cur.attachments.length : Int)))
      = sc.height - (shown_headers sc).length - cur.attachments.length :=
    to_int_to_size_t (by omega) (by omega)
  have hmax : body_max sc.height cur.body.length (shown_headers sc).length
      cur.attachments.length
      ≤ sc.height - (shown_headers sc).length - cur.attachments.length := by
    unfold body_max
    rw [hconv]
    exact min_le_right _ _
  have hcalls : drawMessage_calls sc g
      = some ([Call.lua (bytes "clear();")] ++ line_calls hs ++ line_calls as ++ line_calls bs
          ++ [Call.lua (bytes "on_read_message(" ++ [34] ++ cur.path ++ [34] ++ bytes ");")]) := by
    simp only [drawMessage_calls, hms, hin, and_self, if_true, hat, message_calls, hh1, hb1,
      ha1]
  have hblen : bs.length
      = (body_max sc.height cur.body.length (shown_headers sc).length
          cur.attachments.length - 2).toNat := by
    have := congrArg List.length hb2
    simpa using this
  refine ⟨cur, _, hs, as, bs, hat, hcalls, drawn_message hs as bs _ _, ?_, ha2, ?_, ?_⟩
  · rw [hh2]
    apply List.map_congr_left
    intro k _
    simp
  · rw [hblen]
    exact body_count_le _ _ _ _ hmax
  · intro l hl
    have hl1 : l.1 ∈ bs.map Prod.fst := List.mem_map_of_mem _ hl
    rw [hb2, List.mem_map] at hl1
    obtain ⟨i, hi, hrow⟩ := hl1
    rw [List.mem_range] at hi
    rw [← hrow]
    exact body_row_lt _ _ _ _ _ hmax hi hH

/-- The bounds of the message view on a terminal 12 rows high, for a message
with the four built-in headers, two attachments and three body lines: the
header lines are on rows 0 to 3, the attachment lines on rows 4 and 5, and at
most `12 - 4 - 2 - 2 = 4` body lines are drawn, all above row 11. -/
theorem message_view_bounds_witness :
    ∃ calls hs as bs,
      drawMessage_calls (sample_scene 80 12)
          ({ global_mode := "message", folders := [],
             messages := some [sample_message []
               [bytes "a.txt", bytes "b.txt"] [bytes "one", bytes "two", bytes "three"]],
             selected_folder := 0, selected_message := 0 } : CGlobal Unit CMessage)
        = some calls
      ∧ drawn calls = hs ++ as ++ bs
      ∧ hs.map Prod.fst = [0, 1, 2, 3]
      ∧ as.map Prod.fst = [4, 5]
      ∧ (bs.length : Int) ≤ 4
      ∧ ∀ l ∈ bs, l.1 < 11 := by
  obtain ⟨cur, calls, hs, as, bs, hcur, h1, h2, h3, h4, h5, h6⟩ :=
    message_view_bounds (sample_scene 80 12)
      ({ global_mode := "message", folders := [],
         messages := some [sample_message []
           [bytes "a.txt", bytes "b.txt"] [bytes "one", bytes "two", bytes "three"]],
         selected_folder := 0, selected_message := 0 } : CGlobal Unit CMessage)
      [sample_message [] [bytes "a.txt", bytes "b.txt"] [bytes "one", bytes "two", bytes "three"]]
      rfl (by simp) (by decide) (by decide) (by decide) (by decide) (by decide)
  have hc : cur = sample_message []
      [bytes "a.txt", bytes "b.txt"] [bytes "one", bytes "two", bytes "three"] :=
    (Option.some.inj hcur).symm
  subst hc
  exact ⟨calls, hs, as, bs, h1, h2, h3.trans (by decide), h4.trans (by decide), h5, h6⟩

/-! ## The renderers: refreshing twice -/

section Twice

variable {F M : Type}

end Twice

/-! ## The renderers: the calls of a second refresh -/

theorem painted_append (a b : List Call) :
    ∀ p, painted p (a ++ b) = painted p a ++ painted (pen_after p a) b := by
  induction a with
  | nil => intro p; rfl
  | cons c cs ih =>
    intro p
    cases c <;> simp [painted, pen_after, ih]

end Lumail
